import Mathlib

/-!
Containers of `data-structures`: the bounded array and the singly linked list.

A shallow embedding of `array/array.go` and `linkedlist/linkedlist.go`.

* A Go slice made by `make([]T, n)` is a `List T` (its length is both `len` and `cap`).
* A Go `int` is an `Int`; a value of type `error` is `Option String` (`none` is `nil`).
* A call that can end in a run-time panic returns an `Option`: `none` is the panic.
* The largest length that `make([]T, n)` accepts (the allocation limit of the Go runtime
  divided by the size of an element) is not part of the repository: it is a parameter
  `lim` of `makeslice` and of the functions built on it.
* A `metrics.Counter` is modelled by its count, a `metrics.Timer` by the number of samples
  it has recorded; a nil interface value is `none`.
* The mutexes are not modelled: every operation runs to completion under its lock, so the
  functions below give the effect of one call on the state.
* The zero value of the element type `T` is `default`.
-/

namespace array

/-! ## Go primitives used by the array -/

/-- The Go type `error`: `none` is `nil`, `some msg` is the value of `errors.New(msg)`. -/
abbrev error := Option String

/-- The allocation `make([]T, n)` for a length within the allocation limit of the runtime:
a slice of `n` zero values; panics when `n` is negative. The limit itself is added by
`makeslice` below; `NewArray`, `Resize`, `step` and `run` built on `make` give the calls
whose allocations stay within the limit (`runLim_run`), and `NewArrayLim`, `ResizeLim`,
`stepLim` and `runLim` are the same functions with the limit. -/
def make (T : Type) [Inhabited T] (n : Int) : Option (List T) :=
  if n < 0 then none else some (List.replicate n.toNat default)

/-- The builtin `copy(dst, src)` seen as the new contents of `dst`: the first
`min(len(dst), len(src))` elements are taken from `src`, the rest of `dst` stays. -/
def copy {T : Type} (dst src : List T) : List T :=
  let n := min dst.length src.length
  src.take n ++ dst.drop n

/-- The index expression `xs[i]` read: panics unless `0 ≤ i < len(xs)`. -/
def readAt {T : Type} (xs : List T) (i : Int) : Option T :=
  if 0 ≤ i then xs[i.toNat]? else none

/-- The assignment `xs[i] = v`: panics unless `0 ≤ i < len(xs)`. -/
def writeAt {T : Type} (xs : List T) (i : Int) (v : T) : Option (List T) :=
  if 0 ≤ i ∧ i < xs.length then some (xs.set i.toNat v) else none

/-- The slice expression `xs[lo:hi]`: panics unless `0 ≤ lo ≤ hi ≤ cap(xs)`. -/
def slice {T : Type} (xs : List T) (lo hi : Int) : Option (List T) :=
  if 0 ≤ lo ∧ lo ≤ hi ∧ hi ≤ xs.length then some ((xs.take hi.toNat).drop lo.toNat) else none

/-- The call `c.Inc(1)` on a `metrics.Counter`: panics on the nil interface value. -/
def Inc : Option Nat → Option (Option Nat)
  | none => none
  | some c => some (some (c + 1))

/-! ## The array -/

/-- The struct `ArrayConfig`. -/
structure ArrayConfig where
  MetricsEnabled : Bool
  deriving DecidableEq, Repr

/-- The struct `Array[T]` without its mutex. -/
structure Array (T : Type) where
  data : List T
  size : Int
  config : ArrayConfig
  appendCounter : Option Nat
  getCounter : Option Nat
  resizeCounter : Option Nat
  deriving DecidableEq, Repr

variable {T : Type} [Inhabited T]

/-- The constructor `NewArray`: a zeroed buffer of the given capacity, size 0, and fresh
counters when metrics are enabled. The registration of the counters in the default
registry of the metrics library has no effect on the array and is left out. -/
def NewArray (T : Type) [Inhabited T] (capacity : Int) (config : ArrayConfig) :
    Option (Array T) := do
  let data ← make T capacity
  if config.MetricsEnabled then
    some { data := data, size := 0, config := config,
           appendCounter := some 0, getCounter := some 0, resizeCounter := some 0 }
  else
    some { data := data, size := 0, config := config,
           appendCounter := none, getCounter := none, resizeCounter := none }

/-- The method `Append`. -/
def Array.Append (a : Array T) (value : T) : Option (Array T × error) :=
  if a.size ≥ a.data.length then
    some (a, some "array is full")
  else do
    let data ← writeAt a.data a.size value
    let a1 : Array T := { a with data := data, size := a.size + 1 }
    if a.config.MetricsEnabled then do
      let c ← Inc a1.appendCounter
      some ({ a1 with appendCounter := c }, none)
    else
      some (a1, none)

/-- The method `Get`: the state after the call (only the get counter can change), the
returned value and the returned error. -/
def Array.Get (a : Array T) (index : Int) : Option (Array T × T × error) :=
  if index < 0 ∨ index ≥ a.size then
    some (a, default, some "index out of bounds")
  else do
    let a1 : Array T ←
      if a.config.MetricsEnabled then do
        let c ← Inc a.getCounter
        some { a with getCounter := c }
      else
        some a
    let v ← readAt a1.data index
    some (a1, v, none)

/-- The method `Length`. -/
def Array.Length (a : Array T) : Int :=
  a.size

/-- The method `Resize`. -/
def Array.Resize (a : Array T) (newCapacity : Int) : Option (Array T × error) :=
  if newCapacity < a.size then
    some (a, some "new capacity must be greater than or equal to the current size")
  else do
    let newData ← make T newCapacity
    let a1 : Array T := { a with data := copy newData a.data }
    if a.config.MetricsEnabled then do
      let c ← Inc a1.resizeCounter
      some ({ a1 with resizeCounter := c }, none)
    else
      some (a1, none)

/-- The method `Delete`. The call `copy(a.data[index:], a.data[index+1:a.size])` writes
into the buffer from position `index` on, so the buffer after it is the part before
`index` followed by the result of the copy. -/
def Array.Delete (a : Array T) (index : Int) : Option (Array T × error) :=
  if index < 0 ∨ index ≥ a.size then
    some (a, some "index out of bounds")
  else do
    let dst ← slice a.data index a.data.length
    let src ← slice a.data (index + 1) a.size
    let shifted := a.data.take index.toNat ++ copy dst src
    let size := a.size - 1
    let data ← writeAt shifted size default
    let a1 : Array T := { a with data := data, size := size }
    if a.config.MetricsEnabled then do
      let c ← Inc a1.resizeCounter
      some ({ a1 with resizeCounter := c }, none)
    else
      some (a1, none)

/-- One call of the public interface of the array. -/
inductive Op (T : Type) where
  | Append (value : T)
  | Get (index : Int)
  | Length
  | Resize (newCapacity : Int)
  | Delete (index : Int)
  deriving DecidableEq, Repr

/-- The state after one call, whatever it returned; `none` when the call panics. -/
def step (a : Array T) : Op T → Option (Array T)
  | .Append value => (a.Append value).map Prod.fst
  | .Get index => (a.Get index).map Prod.fst
  | .Length => some a
  | .Resize newCapacity => (a.Resize newCapacity).map Prod.fst
  | .Delete index => (a.Delete index).map Prod.fst

/-- The state after a finite sequence of calls; `none` when one of them panics. -/
def run (a : Array T) : List (Op T) → Option (Array T)
  | [] => some a
  | op :: ops => (step a op).bind fun a1 => run a1 ops

/-- The states the public interface can produce: those obtained from `NewArray` with a
capacity that is not negative by a finite sequence of calls. -/
def Reachable (a : Array T) : Prop :=
  ∃ (capacity : Int) (config : ArrayConfig) (ops : List (Op T)),
    0 ≤ capacity ∧ (NewArray T capacity config).bind (fun a0 => run a0 ops) = some a

/-- The data-model invariant of the struct: `0 ≤ size ≤ cap`, and the three counters exist
when metrics are enabled. -/
def Array.WF (a : Array T) : Prop :=
  0 ≤ a.size ∧ a.size ≤ a.data.length ∧
    (a.config.MetricsEnabled = true →
      a.appendCounter.isSome = true ∧ a.getCounter.isSome = true ∧
        a.resizeCounter.isSome = true)

instance (a : Array T) : Decidable a.WF := by
  unfold Array.WF; infer_instance

/-- The buffer after a successful `Delete` at `i` on a state of size `n`, as computed by
the method (used to state its effect). -/
def deleted {T : Type} [Inhabited T] (data : List T) (i n : Nat) : List T :=
  (data.take i ++ copy (data.drop i) ((data.take n).drop (i + 1))).set (n - 1) default

/-- Whether the call `Delete(index)` on the state `a` returns without an error. -/
def deleteSucceeds {T : Type} [Inhabited T] (a : Array T) (index : Int) : Bool :=
  match a.Delete index with
  | some (_, none) => true
  | _ => false

/-- In the sequence of calls `ops` made from the state `a`, no `Delete` succeeds at an
index `≤ i`. -/
def noDeleteUpTo {T : Type} [Inhabited T] (i : Int) (a : Array T) : List (Op T) → Bool
  | [] => true
  | op :: ops =>
      (match op with
        | .Delete j => !(decide (j ≤ i) && deleteSucceeds a j)
        | _ => true) &&
      (match step a op with
        | some a1 => noDeleteUpTo i a1 ops
        | none => true)

/-- A state with three live elements in a buffer of capacity 5, metrics enabled: the state
after `NewArray[int](5, ...)` and the appends of 10, 20 and 30. -/
def exampleArray : Array Int :=
  { data := [10, 20, 30, 0, 0], size := 3, config := { MetricsEnabled := true },
    appendCounter := some 3, getCounter := some 0, resizeCounter := some 0 }

/-- The state `exampleArray` after a further append of 40. -/
def exampleArray4 : Array Int :=
  { data := [10, 20, 30, 40, 0], size := 4, config := { MetricsEnabled := true },
    appendCounter := some 4, getCounter := some 0, resizeCounter := some 0 }

/-- A full state of capacity 3 with metrics disabled. -/
def fullArray : Array Int :=
  { data := [10, 20, 30], size := 3, config := { MetricsEnabled := false },
    appendCounter := none, getCounter := none, resizeCounter := none }

/-- The calls `Append(v_0)`, ..., `Append(v_{k-1})` made in this order: the final state and
the errors returned by the calls, in order. -/
def appendAll {T : Type} [Inhabited T] (a : Array T) : List T → Option (Array T × List error)
  | [] => some (a, [])
  | v :: vs =>
      (a.Append v).bind fun r =>
        (appendAll r.1 vs).map fun r1 => (r1.1, r.2 :: r1.2)

/-- Whether the call `op` made on the state `a` is an `Append` that returns no error. -/
def appendOk {T : Type} [Inhabited T] (a : Array T) : Op T → Bool
  | .Append v =>
      match a.Append v with
      | some (_, none) => true
      | _ => false
  | _ => false

/-- Whether the call `op` made on the state `a` is a `Get` that returns no error. -/
def getOk {T : Type} [Inhabited T] (a : Array T) : Op T → Bool
  | .Get i =>
      match a.Get i with
      | some (_, _, none) => true
      | _ => false
  | _ => false

/-- Whether the call `op` made on the state `a` is a `Resize` that returns no error. -/
def resizeOk {T : Type} [Inhabited T] (a : Array T) : Op T → Bool
  | .Resize k =>
      match a.Resize k with
      | some (_, none) => true
      | _ => false
  | _ => false

/-- Whether the call `op` made on the state `a` is a `Delete` that returns no error. -/
def deleteOk {T : Type} [Inhabited T] (a : Array T) : Op T → Bool
  | .Delete i => deleteSucceeds a i
  | _ => false

/-- The number of calls in the sequence `ops`, made from the state `a`, that satisfy `p`
in the state in which they are made. -/
def countCalls {T : Type} [Inhabited T] (p : Array T → Op T → Bool) (a : Array T) :
    List (Op T) → Nat
  | [] => 0
  | op :: ops =>
      (if p a op then 1 else 0) +
        (match step a op with
          | some a1 => countCalls p a1 ops
          | none => 0)

/-! ## The allocation limit -/

/-- The allocation `make([]T, n)` as the runtime performs it: it panics
("makeslice: len out of range") when `n` is negative or above `lim`, the largest length
the runtime allocates for the element type, and gives `n` zero values otherwise. -/
def makeslice (T : Type) [Inhabited T] (lim : Nat) (n : Int) : Option (List T) :=
  if n < 0 ∨ (lim : Int) < n then none else some (List.replicate n.toNat default)

/-- The allocation limit for 8-byte elements (a Go `int`) on a 64-bit runtime, whose
largest allocation is `2^48` bytes: `2^45` elements. -/
def limInt64 : Nat := 2 ^ 45

/-- The constructor `NewArray` with the allocation limit. -/
def NewArrayLim (T : Type) [Inhabited T] (lim : Nat) (capacity : Int)
    (config : ArrayConfig) : Option (Array T) := do
  let data ← makeslice T lim capacity
  if config.MetricsEnabled then
    some { data := data, size := 0, config := config,
           appendCounter := some 0, getCounter := some 0, resizeCounter := some 0 }
  else
    some { data := data, size := 0, config := config,
           appendCounter := none, getCounter := none, resizeCounter := none }

/-- The method `Resize` with the allocation limit. -/
def Array.ResizeLim {T : Type} [Inhabited T] (lim : Nat) (a : Array T)
    (newCapacity : Int) : Option (Array T × error) :=
  if newCapacity < a.size then
    some (a, some "new capacity must be greater than or equal to the current size")
  else do
    let newData ← makeslice T lim newCapacity
    let a1 : Array T := { a with data := copy newData a.data }
    if a.config.MetricsEnabled then do
      let c ← Inc a1.resizeCounter
      some ({ a1 with resizeCounter := c }, none)
    else
      some (a1, none)

/-- The state after one call, with the allocation limit; `none` when the call panics. -/
def stepLim {T : Type} [Inhabited T] (lim : Nat) (a : Array T) : Op T → Option (Array T)
  | .Append value => (a.Append value).map Prod.fst
  | .Get index => (a.Get index).map Prod.fst
  | .Length => some a
  | .Resize newCapacity => (a.ResizeLim lim newCapacity).map Prod.fst
  | .Delete index => (a.Delete index).map Prod.fst

/-- The state after a finite sequence of calls, with the allocation limit; `none` when
one of them panics. -/
def runLim {T : Type} [Inhabited T] (lim : Nat) (a : Array T) :
    List (Op T) → Option (Array T)
  | [] => some a
  | op :: ops => (stepLim lim a op).bind fun a1 => runLim lim a1 ops

/-- The states the public interface produces under the allocation limit `lim`. -/
def ReachableLim {T : Type} [Inhabited T] (lim : Nat) (a : Array T) : Prop :=
  ∃ (capacity : Int) (config : ArrayConfig) (ops : List (Op T)),
    0 ≤ capacity ∧
      (NewArrayLim T lim capacity config).bind (fun a0 => runLim lim a0 ops) = some a

/-- The count of a counter after one more successful call when metrics are enabled, the
counter as it was otherwise. -/
def bump (enabled : Bool) (c : Option Nat) : Option Nat :=
  if enabled then c.map (· + 1) else c

end array

namespace linkedlist

/-! ## The linked list -/

/-- The struct `Node`: the data and the `next` pointer, `none` for nil. A chain of nodes
is a finite, unshared sequence: every node is owned by its predecessor (or by the list,
for the head). The `data` field has type `interface{}` in the source; its values are
taken from a type `T` on which `==` is a decidable equality. -/
inductive Node (T : Type) where
  | mk (data : T) (next : Option (Node T)) : Node T
  deriving Repr

/-- The field `data` of a node. -/
def Node.data {T : Type} : Node T → T
  | .mk d _ => d

/-- The field `next` of a node. -/
def Node.next {T : Type} : Node T → Option (Node T)
  | .mk _ n => n

/-- The struct `LinkedList` without its mutex. -/
structure LinkedList (T : Type) where
  head : Option (Node T)
  length : Int

/-- The package-level metric variables: a counter is its count, a timer is the number of
samples recorded in it, and `none` is the nil value the variables hold before
`initMetrics` has run. -/
structure Metrics where
  AddCounter : Option Nat
  RemoveCounter : Option Nat
  FindCounter : Option Nat
  AddDuration : Option Nat
  RemoveDuration : Option Nat
  FindDuration : Option Nat
  deriving DecidableEq, Repr

/-- The call `c.Inc(1)` on a `metrics.Counter`: panics on the nil interface value. -/
def Inc : Option Nat → Option (Option Nat)
  | none => none
  | some c => some (some (c + 1))

/-- The call `t.UpdateSince(start)` on a `metrics.Timer`: one more sample is recorded;
panics on the nil interface value. The duration itself is not modelled. -/
def UpdateSince : Option Nat → Option (Option Nat)
  | none => none
  | some n => some (some (n + 1))

/-- The function `initMetrics`: six fresh metrics. The registration under their names in
the registry of the metrics library has no effect on the variables and is left out. -/
def initMetrics (_ : Metrics) : Metrics :=
  { AddCounter := some 0, RemoveCounter := some 0, FindCounter := some 0,
    AddDuration := some 0, RemoveDuration := some 0, FindDuration := some 0 }

/-- The constructor `NewLinkedList`: runs `initMetrics` and returns the empty list. -/
def NewLinkedList (T : Type) (m : Metrics) : Metrics × LinkedList T :=
  (initMetrics m, { head := none, length := 0 })

/-- The sequence of the data of the nodes of a chain, from its first node on. -/
def Node.toList {T : Type} : Node T → List T
  | .mk d none => [d]
  | .mk d (some n) => d :: n.toList

/-- The traversal of a list: the data of the nodes reached from `head` through `next`. -/
def LinkedList.traversal {T : Type} (list : LinkedList T) : List T :=
  match list.head with
  | none => []
  | some h => h.toList

/-- The data of the nodes reached from a pointer that may be nil. -/
def toListFrom {T : Type} : Option (Node T) → List T
  | none => []
  | some n => n.toList

variable {T : Type} [DecidableEq T]

/-- The loop of `Add` from `current`: walks to the last node and links the new node
there; the result is the chain from `current` after the assignment. -/
def Add.loop (newNode : Node T) : Node T → Node T
  | .mk d none => .mk d (some newNode)
  | .mk d (some n) => .mk d (some (Add.loop newNode n))

/-- The method `Add`. -/
def LinkedList.Add (m : Metrics) (list : LinkedList T) (data : T) :
    Option (Metrics × LinkedList T) := do
  let newNode : Node T := .mk data none
  let head :=
    match list.head with
    | none => newNode
    | some h => Add.loop newNode h
  let list1 : LinkedList T := { head := some head, length := list.length + 1 }
  let c ← Inc m.AddCounter
  let t ← UpdateSince m.AddDuration
  some ({ m with AddCounter := c, AddDuration := t }, list1)

/-- The loop of `Remove` from `current`: when a node after `current` holds `data`, the
first such node is unlinked and the result is the chain from `current` after the
assignment; `none` when the loop ends without a match (nothing was written). -/
def Remove.loop (data : T) : Node T → Option (Node T)
  | .mk _ none => none
  | .mk d (some n) =>
      if n.data = data then some (.mk d n.next)
      else (Remove.loop data n).map fun n1 => .mk d (some n1)

/-- The two metric updates of a successful `Remove`. -/
def Remove.record (m : Metrics) : Option Metrics := do
  let c ← Inc m.RemoveCounter
  let t ← UpdateSince m.RemoveDuration
  some { m with RemoveCounter := c, RemoveDuration := t }

/-- The method `Remove`. -/
def LinkedList.Remove (m : Metrics) (list : LinkedList T) (data : T) :
    Option (Metrics × LinkedList T) :=
  match list.head with
  | none => some (m, list)
  | some h =>
      if h.data = data then do
        let list1 : LinkedList T := { head := h.next, length := list.length - 1 }
        let m1 ← Remove.record m
        some (m1, list1)
      else
        match Remove.loop data h with
        | some h1 => do
            let list1 : LinkedList T := { head := some h1, length := list.length - 1 }
            let m1 ← Remove.record m
            some (m1, list1)
        | none => some (m, list)

/-- The loop of `Find` from `current`: the first node whose data is `data`, if any. -/
def Find.loop (data : T) : Option (Node T) → Option (Node T)
  | none => none
  | some (.mk d n) => if d = data then some (.mk d n) else Find.loop data n

/-- The method `Find`: the metrics after the call and the returned node, `none` for nil.
The list itself is not written. -/
def LinkedList.Find (m : Metrics) (list : LinkedList T) (data : T) :
    Option (Metrics × Option (Node T)) :=
  match Find.loop data list.head with
  | some node => do
      let c ← Inc m.FindCounter
      let t ← UpdateSince m.FindDuration
      some ({ m with FindCounter := c, FindDuration := t }, some node)
  | none => some (m, none)

/-- One call of the public interface of a list. -/
inductive Op (T : Type) where
  | Add (data : T)
  | Remove (data : T)
  | Find (data : T)
  deriving DecidableEq, Repr

/-- The metric variables and the list after one call, whatever it returned; `none` when
the call panics. `Find` does not write the list. -/
def step (s : Metrics × LinkedList T) : Op T → Option (Metrics × LinkedList T)
  | .Add data => s.2.Add s.1 data
  | .Remove data => s.2.Remove s.1 data
  | .Find data => (s.2.Find s.1 data).map fun r => (r.1, s.2)

/-- The metric variables and the list after a finite sequence of calls. -/
def run (s : Metrics × LinkedList T) : List (Op T) → Option (Metrics × LinkedList T)
  | [] => some s
  | op :: ops => (step s op).bind fun s1 => run s1 ops

/-- The number of `Add` calls in a sequence of calls. -/
def countAdds : List (Op T) → Nat
  | [] => 0
  | .Add _ :: ops => countAdds ops + 1
  | _ :: ops => countAdds ops

/-- Whether the call `op` is a `Remove` whose value is in the list when it is made. -/
def removeHit (s : Metrics × LinkedList T) : Op T → Bool
  | .Remove data => decide (data ∈ s.2.traversal)
  | _ => false

/-- Whether the call `op` is a `Find` that returns a node. -/
def findHit (s : Metrics × LinkedList T) : Op T → Bool
  | .Find data =>
      match s.2.Find s.1 data with
      | some (_, some _) => true
      | _ => false
  | _ => false

/-- The number of calls in the sequence `ops`, made from the state `s`, that satisfy `p`
in the state in which they are made. -/
def countCalls (p : Metrics × LinkedList T → Op T → Bool) (s : Metrics × LinkedList T) :
    List (Op T) → Nat
  | [] => 0
  | op :: ops =>
      (if p s op then 1 else 0) +
        (match step s op with
          | some s1 => countCalls p s1 ops
          | none => 0)

/-- The metric variables that `Add` writes are not nil, as after `initMetrics`. -/
def Metrics.addReady (m : Metrics) : Prop :=
  m.AddCounter.isSome = true ∧ m.AddDuration.isSome = true

instance (m : Metrics) : Decidable m.addReady := by
  unfold Metrics.addReady; infer_instance

/-- The metric variables that `Find` writes are not nil, as after `initMetrics`. -/
def Metrics.findReady (m : Metrics) : Prop :=
  m.FindCounter.isSome = true ∧ m.FindDuration.isSome = true

instance (m : Metrics) : Decidable m.findReady := by
  unfold Metrics.findReady; infer_instance

/-- The value 1 when the condition holds and 0 otherwise: what a call adds to a count. -/
def tick (b : Bool) : Nat :=
  if b then 1 else 0

/-- Whether the call `op` is an `Add`. -/
def isAdd : Op T → Bool
  | .Add _ => true
  | _ => false

/-- The list with traversal 10, 20, 30, 20. -/
def exampleList : LinkedList Nat :=
  { head := some (.mk 10 (some (.mk 20 (some (.mk 30 (some (.mk 20 none))))))),
    length := 4 }

/-- The metric variables before `initMetrics` has run: all nil. -/
def nilMetrics : Metrics :=
  { AddCounter := none, RemoveCounter := none, FindCounter := none,
    AddDuration := none, RemoveDuration := none, FindDuration := none }

/-- The metric variables that `Remove` writes are not nil, as after `initMetrics`. -/
def Metrics.removeReady (m : Metrics) : Prop :=
  m.RemoveCounter.isSome = true ∧ m.RemoveDuration.isSome = true

instance (m : Metrics) : Decidable m.removeReady := by
  unfold Metrics.removeReady; infer_instance

/-- All six metric variables are not nil, as after `initMetrics`. -/
def Metrics.ready (m : Metrics) : Prop :=
  m.addReady ∧ m.removeReady ∧ m.findReady

end linkedlist

namespace array

variable {T : Type}

/-! ## Lemmas on the primitives -/

theorem writeAt_ofNat (xs : List T) (i : Nat) (v : T) (h : i < xs.length) :
    writeAt xs (i : Int) v = some (xs.set i v) := by
  simp [writeAt, h]

theorem readAt_ofNat (xs : List T) (i : Nat) :
    readAt xs (i : Int) = xs[i]? := by
  simp [readAt]

theorem slice_ofNat (xs : List T) (lo hi : Nat) (h1 : lo ≤ hi) (h2 : hi ≤ xs.length) :
    slice xs (lo : Int) (hi : Int) = some ((xs.take hi).drop lo) := by
  simp [slice, h1, h2]

theorem make_ofNat [Inhabited T] (n : Nat) : make T (n : Int) = some (List.replicate n default) := by
  simp [make]

theorem Inc_isSome (c : Option Nat) (h : c.isSome = true) : Inc c = some (c.map (· + 1)) := by
  cases c with
  | none => simp at h
  | some k => rfl

theorem copy_length (dst src : List T) : (copy dst src).length = dst.length := by
  simp only [copy, List.length_append, List.length_take, List.length_drop]
  omega

theorem getElem?_copy (dst src : List T) (j : Nat) :
    (copy dst src)[j]? = if j < min dst.length src.length then src[j]? else dst[j]? := by
  simp only [copy]
  split
  · rename_i h
    rw [List.getElem?_append_left (by simp; omega)]
    rw [List.getElem?_take_of_lt (by omega)]
  · rename_i h
    rw [List.getElem?_append_right (by simp; omega)]
    simp only [List.length_take, List.getElem?_drop]
    congr 1
    omega

/-! ## The effect of each successful call -/

theorem Append_ok [Inhabited T] (a : Array T) (v : T) (n : Nat) (hn : a.size = n)
    (hlt : n < a.data.length)
    (hc : a.config.MetricsEnabled = true → a.appendCounter.isSome = true) :
    a.Append v = some ({ a with data := a.data.set n v, size := n + 1,
                                appendCounter := bump a.config.MetricsEnabled a.appendCounter },
                       none) := by
  unfold Array.Append
  rw [hn, if_neg (by omega), writeAt_ofNat _ _ _ hlt]
  cases hm : a.config.MetricsEnabled with
  | false => simp [bump]
  | true => simp [bump, Inc_isSome _ (hc hm)]

theorem Get_ok [Inhabited T] (a : Array T) (i : Nat) (x : T) (hi : (i : Int) < a.size)
    (hx : a.data[i]? = some x)
    (hc : a.config.MetricsEnabled = true → a.getCounter.isSome = true) :
    a.Get i = some ({ a with getCounter := bump a.config.MetricsEnabled a.getCounter },
                    x, none) := by
  unfold Array.Get
  rw [if_neg (by omega)]
  cases hm : a.config.MetricsEnabled with
  | false => simp [bump, readAt_ofNat, hx]
  | true => simp [bump, Inc_isSome _ (hc hm), readAt_ofNat, hx]

theorem Resize_ok [Inhabited T] (a : Array T) (k : Nat) (hk : a.size ≤ k)
    (hc : a.config.MetricsEnabled = true → a.resizeCounter.isSome = true) :
    a.Resize k = some ({ a with data := copy (List.replicate k default) a.data,
                                resizeCounter := bump a.config.MetricsEnabled a.resizeCounter },
                       none) := by
  unfold Array.Resize
  rw [if_neg (by omega), make_ofNat]
  cases hm : a.config.MetricsEnabled with
  | false => simp [bump]
  | true => simp [bump, Inc_isSome _ (hc hm)]

theorem deleted_length [Inhabited T] (data : List T) (i n : Nat) (hi : i < n)
    (hn : n ≤ data.length) : (deleted data i n).length = data.length := by
  simp only [deleted, List.length_set, List.length_append, List.length_take, copy_length,
    List.length_drop]
  omega

theorem Delete_ok [Inhabited T] (a : Array T) (i n : Nat) (hsz : a.size = n) (hi : i < n)
    (hn : n ≤ a.data.length)
    (hc : a.config.MetricsEnabled = true → a.resizeCounter.isSome = true) :
    a.Delete i = some ({ a with data := deleted a.data i n, size := (n : Int) - 1,
                                resizeCounter := bump a.config.MetricsEnabled a.resizeCounter },
                       none) := by
  unfold Array.Delete
  rw [hsz, if_neg (by omega)]
  have h1 : slice a.data (i : Int) (a.data.length : Int) = some (a.data.drop i) := by
    rw [slice_ofNat _ _ _ (by omega) (le_refl _), List.take_length]
  have h2 : slice a.data ((i : Int) + 1) (n : Int) = some ((a.data.take n).drop (i + 1)) := by
    have := slice_ofNat a.data (i + 1) n (by omega) hn
    simpa using this
  have h3 : ((n : Int) - 1) = ((n - 1 : Nat) : Int) := by omega
  rw [h1, h2]
  simp only [Option.bind_eq_bind, Option.some_bind, Int.toNat_ofNat]
  rw [h3, writeAt_ofNat _ _ _ (by
    simp only [List.length_append, List.length_take, copy_length, List.length_drop]; omega)]
  cases hm : a.config.MetricsEnabled with
  | false => simp [bump, deleted]
  | true => simp [bump, deleted, Inc_isSome _ (hc hm)]

theorem getElem?_deleted [Inhabited T] (data : List T) (i n j : Nat) (hi : i < n)
    (hn : n ≤ data.length) :
    (deleted data i n)[j]? =
      if j < i then data[j]?
      else if j < n - 1 then data[j + 1]?
      else if j = n - 1 then some default
      else data[j]? := by
  unfold deleted
  rw [List.getElem?_set]
  have hlen : (List.take i data ++ copy (List.drop i data)
      (List.drop (i + 1) (List.take n data))).length = data.length := by
    simp only [List.length_append, List.length_take, copy_length, List.length_drop]; omega
  by_cases h1 : n - 1 = j
  · subst h1
    rw [if_pos rfl, if_pos (by omega), if_neg (by omega), if_neg (by omega), if_pos rfl]
  · rw [if_neg h1]
    by_cases h2 : j < i
    · rw [if_pos h2, List.getElem?_append_left (by simp; omega),
        List.getElem?_take_of_lt h2]
    · rw [if_neg h2, List.getElem?_append_right (by simp; omega), getElem?_copy]
      simp only [List.length_take, List.length_drop, List.getElem?_drop]
      by_cases h3 : j < n - 1
      · rw [if_pos h3, if_pos (by omega), List.getElem?_take_of_lt (by omega)]
        congr 1; omega
      · rw [if_neg h3, if_neg (by omega), if_neg (by omega)]
        congr 1; omega

theorem readAt_of_nonneg (xs : List T) (j : Int) (hj : 0 ≤ j) :
    readAt xs j = xs[j.toNat]? := by
  simp [readAt, hj]

theorem readAt_of_neg (xs : List T) (j : Int) (hj : j < 0) : readAt xs j = none := by
  simp [readAt, hj]

/-! ## The contract of each method -/

/-- C1: on every array state that satisfies the data-model invariant and has
size < capacity, `Append(v)` returns no error, the new size is the old size + 1, the slot at
the old size holds `v`, every other slot of the buffer is unchanged, and the capacity is
unchanged. -/
theorem Append_success [Inhabited T] (a : Array T) (v : T) (hwf : a.WF)
    (hroom : a.size < a.data.length) :
    ∃ a1 : Array T, a.Append v = some (a1, none) ∧ a1.size = a.size + 1 ∧
      readAt a1.data a.size = some v ∧
      (∀ j : Int, j ≠ a.size → readAt a1.data j = readAt a.data j) ∧
      a1.data.length = a.data.length := by
  obtain ⟨h0, _, hc⟩ := hwf
  obtain ⟨n, hn⟩ := Int.eq_ofNat_of_zero_le h0
  have hlt : n < a.data.length := by omega
  refine ⟨_, Append_ok a v n hn hlt (fun h => (hc h).1), ?_, ?_, ?_, ?_⟩
  · simp [hn]
  · rw [hn, readAt_ofNat]
    simp [List.getElem?_set, hlt]
  · intro j hj
    by_cases hneg : j < 0
    · rw [readAt_of_neg _ _ hneg, readAt_of_neg _ _ hneg]
    · rw [readAt_of_nonneg _ _ (by omega), readAt_of_nonneg _ _ (by omega)]
      simp only [List.getElem?_set]
      rw [if_neg (by omega)]
  · simp

/-- C2: on every array state with size == capacity, `Append(v)` returns the error
"array is full" and leaves the whole state, size and buffer included, unchanged. -/
theorem Append_full [Inhabited T] (a : Array T) (v : T) (hfull : a.size = a.data.length) :
    a.Append v = some (a, some "array is full") := by
  unfold Array.Append
  rw [if_pos (by omega)]

/-- C3: on every array state that satisfies the data-model invariant and for every integer
index, `Get(index)` returns the error "index out of bounds" exactly when index < 0 or
index >= size (and then the state is unchanged); otherwise it returns no error and the
value stored at `data[index]`, with size and buffer unchanged. -/
theorem Get_contract [Inhabited T] (a : Array T) (index : Int) (hwf : a.WF) :
    ((∃ (a1 : Array T) (x : T), a.Get index = some (a1, x, some "index out of bounds")) ↔
        (index < 0 ∨ index ≥ a.size)) ∧
      ((index < 0 ∨ index ≥ a.size) →
        a.Get index = some (a, default, some "index out of bounds")) ∧
      (¬ (index < 0 ∨ index ≥ a.size) →
        ∃ (a1 : Array T) (x : T), a.Get index = some (a1, x, none) ∧
          readAt a.data index = some x ∧ a1.data = a.data ∧ a1.size = a.size) := by
  obtain ⟨_, hle, hc⟩ := hwf
  have hbad : (index < 0 ∨ index ≥ a.size) →
      a.Get index = some (a, default, some "index out of bounds") := by
    intro h
    unfold Array.Get
    rw [if_pos h]
  have hgood : ¬ (index < 0 ∨ index ≥ a.size) →
      ∃ (a1 : Array T) (x : T), a.Get index = some (a1, x, none) ∧
        readAt a.data index = some x ∧ a1.data = a.data ∧ a1.size = a.size := by
    intro h
    obtain ⟨i, hi⟩ := Int.eq_ofNat_of_zero_le (show 0 ≤ index by omega)
    subst hi
    have hlt : i < a.data.length := by omega
    refine ⟨_, a.data[i], Get_ok a i (a.data[i]) (by omega)
      (List.getElem?_eq_getElem hlt) (fun h => (hc h).2.1), ?_, rfl, rfl⟩
    rw [readAt_ofNat, List.getElem?_eq_getElem hlt]
  refine ⟨⟨?_, fun h => ⟨a, default, hbad h⟩⟩, hbad, hgood⟩
  rintro ⟨a1, x, hget⟩
  by_contra hcon
  obtain ⟨a2, y, hok, _⟩ := hgood hcon
  rw [hok] at hget
  simp at hget

/-- C4: on every array state that satisfies the data-model invariant and for every index
with 0 <= index < size, `Delete(index)` returns no error, the new size is the old size - 1,
every position before `index` is unchanged, every position j with index <= j < size - 1
holds the element that was at j + 1, and the slot at position old size - 1 holds the zero
value. -/
theorem Delete_success [Inhabited T] (a : Array T) (index : Int) (hwf : a.WF)
    (h0 : 0 ≤ index) (h1 : index < a.size) :
    ∃ a1 : Array T, a.Delete index = some (a1, none) ∧ a1.size = a.size - 1 ∧
      (∀ j : Int, j < index → readAt a1.data j = readAt a.data j) ∧
      (∀ j : Int, index ≤ j → j < a.size - 1 → readAt a1.data j = readAt a.data (j + 1)) ∧
      readAt a1.data (a.size - 1) = some default := by
  obtain ⟨hs, hle, hc⟩ := hwf
  obtain ⟨n, hn⟩ := Int.eq_ofNat_of_zero_le hs
  obtain ⟨i, hi⟩ := Int.eq_ofNat_of_zero_le h0
  subst hi
  have hin : i < n := by omega
  have hnl : n ≤ a.data.length := by omega
  refine ⟨_, Delete_ok a i n hn hin hnl (fun h => (hc h).2.2), ?_, ?_, ?_, ?_⟩
  · simp [hn]
  · intro j hj
    by_cases hneg : j < 0
    · rw [readAt_of_neg _ _ hneg, readAt_of_neg _ _ hneg]
    · rw [readAt_of_nonneg _ _ (by omega), readAt_of_nonneg _ _ (by omega)]
      simp only
      rw [getElem?_deleted _ _ _ _ hin hnl, if_pos (by omega)]
  · intro j hj1 hj2
    rw [readAt_of_nonneg _ _ (by omega), readAt_of_nonneg _ _ (by omega)]
    simp only
    rw [getElem?_deleted _ _ _ _ hin hnl, if_neg (by omega), if_pos (by omega)]
    congr 1
    omega
  · rw [readAt_of_nonneg _ _ (by omega)]
    simp only
    rw [getElem?_deleted _ _ _ _ hin hnl, if_neg (by omega), if_neg (by omega),
      if_pos (by omega)]

/-- C5: on every array state and for every integer index with index < 0 or index >= size,
`Delete(index)` returns the error "index out of bounds" and leaves the whole state, size
and buffer included, unchanged; and `Delete` returns an error on exactly the pairs
(state, index) on which `Get` returns one. -/
theorem Delete_invalid [Inhabited T] (a : Array T) (index : Int) :
    ((index < 0 ∨ index ≥ a.size) →
        a.Delete index = some (a, some "index out of bounds")) ∧
      ((∃ (a1 : Array T) (msg : String), a.Delete index = some (a1, some msg)) ↔
        (∃ (a1 : Array T) (x : T) (msg : String), a.Get index = some (a1, x, some msg))) ∧
      ((∃ (a1 : Array T) (msg : String), a.Delete index = some (a1, some msg)) ↔
        (index < 0 ∨ index ≥ a.size)) := by
  have hdel : (index < 0 ∨ index ≥ a.size) →
      a.Delete index = some (a, some "index out of bounds") := by
    intro h
    unfold Array.Delete
    rw [if_pos h]
  have hget : (index < 0 ∨ index ≥ a.size) →
      a.Get index = some (a, default, some "index out of bounds") := by
    intro h
    unfold Array.Get
    rw [if_pos h]
  have hdel2 : (∃ (a1 : Array T) (msg : String), a.Delete index = some (a1, some msg)) →
      (index < 0 ∨ index ≥ a.size) := by
    rintro ⟨a1, msg, h⟩
    by_contra hcon
    unfold Array.Delete at h
    rw [if_neg hcon] at h
    simp only [Option.bind_eq_bind, Option.bind_eq_some] at h
    obtain ⟨_, _, _, _, _, _, h⟩ := h
    split at h
    · simp only [Option.bind_eq_some] at h
      obtain ⟨_, _, h⟩ := h
      simp at h
    · simp at h
  have hget2 : (∃ (a1 : Array T) (x : T) (msg : String),
      a.Get index = some (a1, x, some msg)) → (index < 0 ∨ index ≥ a.size) := by
    rintro ⟨a1, x, msg, h⟩
    by_contra hcon
    unfold Array.Get at h
    rw [if_neg hcon] at h
    cases hm : a.config.MetricsEnabled <;>
      simp [hm, Option.bind_eq_some] at h
  exact ⟨hdel, ⟨fun h => ⟨a, default, _, hget (hdel2 h)⟩, fun h => ⟨a, _, hdel (hget2 h)⟩⟩,
    ⟨hdel2, fun h => ⟨a, _, hdel h⟩⟩⟩

/-- C7: on every array state and for every integer newCap < size (negative values
included), `Resize(newCap)` returns the error "new capacity must be greater than or equal
to the current size" and leaves the whole state (buffer, capacity and size) unchanged. -/
theorem Resize_too_small [Inhabited T] (a : Array T) (newCapacity : Int)
    (hsmall : newCapacity < a.size) :
    a.Resize newCapacity =
      some (a, some "new capacity must be greater than or equal to the current size") := by
  unfold Array.Resize
  rw [if_pos hsmall]

/-! ## The invariant along sequences of calls -/

theorem bump_isSome (e : Bool) (c : Option Nat) (h : c.isSome = true) :
    (bump e c).isSome = true := by
  cases e <;> cases c <;> simp_all [bump]

theorem step_Append_eq [Inhabited T] {a a1 : Array T} {v : T} {e : error}
    (h : a.Append v = some (a1, e)) : step a (.Append v) = some a1 := by
  simp [step, h]

theorem step_Get_eq [Inhabited T] {a a1 : Array T} {i : Int} {x : T} {e : error}
    (h : a.Get i = some (a1, x, e)) : step a (.Get i) = some a1 := by
  simp [step, h]

theorem step_Resize_eq [Inhabited T] {a a1 : Array T} {k : Int} {e : error}
    (h : a.Resize k = some (a1, e)) : step a (.Resize k) = some a1 := by
  simp [step, h]

theorem step_Delete_eq [Inhabited T] {a a1 : Array T} {i : Int} {e : error}
    (h : a.Delete i = some (a1, e)) : step a (.Delete i) = some a1 := by
  simp [step, h]

/-- What one call does to a state that satisfies the invariant: it does not panic, the
invariant holds afterwards, and buffer and size are either untouched or changed as by a
successful `Append`, `Resize` or `Delete`. -/
theorem step_cases [Inhabited T] (a : Array T) (op : Op T) (hwf : a.WF) :
    ∃ a1 : Array T, step a op = some a1 ∧ a1.WF ∧ a1.config = a.config ∧
      ((a1.data = a.data ∧ a1.size = a.size) ∨
        (∃ (v : T) (n : Nat), op = .Append v ∧ a.size = n ∧ n < a.data.length ∧
          a1.data = a.data.set n v ∧ a1.size = n + 1) ∨
        (∃ k : Nat, op = .Resize k ∧ a.size ≤ k ∧
          a1.data = copy (List.replicate k default) a.data ∧ a1.size = a.size) ∨
        (∃ i n : Nat, op = .Delete i ∧ a.size = n ∧ i < n ∧ n ≤ a.data.length ∧
          a1.data = deleted a.data i n ∧ a1.size = n - 1 ∧
          a.Delete i = some (a1, none))) := by
  have hwf0 := hwf
  obtain ⟨hs, hle, hc⟩ := hwf
  obtain ⟨n, hn⟩ := Int.eq_ofNat_of_zero_le hs
  cases op with
  | Append v =>
    by_cases hfull : a.size ≥ a.data.length
    · refine ⟨a, ?_, hwf0, rfl, Or.inl ⟨rfl, rfl⟩⟩
      simp [step, Array.Append, hfull]
    · have hlt : n < a.data.length := by omega
      refine ⟨_, step_Append_eq (Append_ok a v n hn hlt (fun h => (hc h).1)), ?_, rfl,
        Or.inr (Or.inl ⟨v, n, rfl, hn, hlt, rfl, rfl⟩)⟩
      · refine ⟨?_, ?_, fun h => ⟨bump_isSome _ _ (hc h).1, (hc h).2.1, (hc h).2.2⟩⟩
        · show (0 : Int) ≤ (n : Int) + 1
          omega
        · show (n : Int) + 1 ≤ ((a.data.set n v).length : Int)
          simp only [List.length_set]
          omega
  | Get index =>
    by_cases hbad : index < 0 ∨ index ≥ a.size
    · refine ⟨a, ?_, hwf0, rfl, Or.inl ⟨rfl, rfl⟩⟩
      simp [step, Array.Get, hbad]
    · obtain ⟨i, hi⟩ := Int.eq_ofNat_of_zero_le (show 0 ≤ index by omega)
      subst hi
      have hlt : i < a.data.length := by omega
      refine ⟨_, step_Get_eq (Get_ok a i (a.data[i]) (by omega)
        (List.getElem?_eq_getElem hlt) (fun h => (hc h).2.1)), ?_, rfl, Or.inl ⟨rfl, rfl⟩⟩
      · exact ⟨hs, hle, fun h => ⟨(hc h).1, bump_isSome _ _ (hc h).2.1, (hc h).2.2⟩⟩
  | Length => exact ⟨a, rfl, hwf0, rfl, Or.inl ⟨rfl, rfl⟩⟩
  | Resize newCapacity =>
    by_cases hsmall : newCapacity < a.size
    · refine ⟨a, ?_, hwf0, rfl, Or.inl ⟨rfl, rfl⟩⟩
      simp [step, Array.Resize, hsmall]
    · obtain ⟨k, hk⟩ := Int.eq_ofNat_of_zero_le (show 0 ≤ newCapacity by omega)
      subst hk
      refine ⟨_, step_Resize_eq (Resize_ok a k (by omega) (fun h => (hc h).2.2)), ?_, rfl,
        Or.inr (Or.inr (Or.inl ⟨k, rfl, by omega, rfl, rfl⟩))⟩
      · refine ⟨hs, ?_, fun h => ⟨(hc h).1, (hc h).2.1, bump_isSome _ _ (hc h).2.2⟩⟩
        show a.size ≤ ((copy (List.replicate k default) a.data).length : Int)
        rw [copy_length, List.length_replicate]
        omega
  | Delete index =>
    by_cases hbad : index < 0 ∨ index ≥ a.size
    · refine ⟨a, ?_, hwf0, rfl, Or.inl ⟨rfl, rfl⟩⟩
      simp [step, Array.Delete, hbad]
    · obtain ⟨i, hi⟩ := Int.eq_ofNat_of_zero_le (show 0 ≤ index by omega)
      subst hi
      have hin : i < n := by omega
      have hnl : n ≤ a.data.length := by omega
      have hok := Delete_ok a i n hn hin hnl (fun h => (hc h).2.2)
      refine ⟨_, step_Delete_eq hok, ?_, rfl,
        Or.inr (Or.inr (Or.inr ⟨i, n, rfl, hn, hin, hnl, rfl, rfl, hok⟩))⟩
      · refine ⟨?_, ?_, fun h => ⟨(hc h).1, (hc h).2.1, bump_isSome _ _ (hc h).2.2⟩⟩
        · show (0 : Int) ≤ (n : Int) - 1
          omega
        · show (n : Int) - 1 ≤ ((deleted a.data i n).length : Int)
          rw [deleted_length _ _ _ hin hnl]
          omega

theorem step_WF [Inhabited T] (a : Array T) (op : Op T) (hwf : a.WF) :
    ∃ a1 : Array T, step a op = some a1 ∧ a1.WF := by
  obtain ⟨a1, h1, h2, _⟩ := step_cases a op hwf
  exact ⟨a1, h1, h2⟩

theorem run_WF [Inhabited T] (ops : List (Op T)) (a : Array T) (hwf : a.WF) :
    ∃ a1 : Array T, run a ops = some a1 ∧ a1.WF := by
  induction ops generalizing a with
  | nil => exact ⟨a, rfl, hwf⟩
  | cons op ops ih =>
    obtain ⟨a1, h1, h2⟩ := step_WF a op hwf
    obtain ⟨a2, h3, h4⟩ := ih a1 h2
    exact ⟨a2, by simp [run, h1, h3], h4⟩

theorem NewArray_WF [Inhabited T] (capacity : Int) (config : ArrayConfig)
    (hcap : 0 ≤ capacity) :
    ∃ a0 : Array T, NewArray T capacity config = some a0 ∧ a0.WF ∧ a0.size = 0 ∧
      a0.data = List.replicate capacity.toNat default ∧ a0.config = config := by
  unfold NewArray make
  rw [if_neg (by omega)]
  cases hm : config.MetricsEnabled <;> simp [Array.WF, hm]

theorem Reachable.wf [Inhabited T] {a : Array T} (h : Reachable a) : a.WF := by
  obtain ⟨capacity, config, ops, hcap, hrun⟩ := h
  obtain ⟨a0, h0, hwf0, _⟩ := NewArray_WF (T := T) capacity config hcap
  rw [h0] at hrun
  obtain ⟨a1, h1, hwf1⟩ := run_WF ops a0 hwf0
  simp only [Option.some_bind] at hrun
  rw [h1] at hrun
  cases hrun
  exact hwf1

theorem step_keeps [Inhabited T] (i : Nat) (v : T) (a : Array T) (op : Op T) (hwf : a.WF)
    (hlt : (i : Int) < a.size) (hv : a.data[i]? = some v)
    (hno : ∀ j : Int, op = .Delete j → j ≤ i → deleteSucceeds a j = false) :
    ∃ a1 : Array T, step a op = some a1 ∧ a1.WF ∧ (i : Int) < a1.size ∧
      a1.data[i]? = some v := by
  obtain ⟨a1, hstep, hwf1, _, hshape⟩ := step_cases a op hwf
  refine ⟨a1, hstep, hwf1, ?_⟩
  rcases hshape with ⟨hd, hsz⟩ | ⟨w, n, _, hn, hnl, hd, hsz⟩ | ⟨k, _, hk, hd, hsz⟩ |
    ⟨j, n, hop, hn, hjn, hnl, hd, hsz, hdel⟩
  · rw [hd, hsz]; exact ⟨hlt, hv⟩
  · rw [hd, hsz]
    refine ⟨by omega, ?_⟩
    rw [List.getElem?_set, if_neg (by omega)]
    exact hv
  · rw [hd, hsz]
    refine ⟨hlt, ?_⟩
    have := hwf.2.1
    rw [getElem?_copy, if_pos (by simp only [List.length_replicate]; omega)]
    exact hv
  · have hji : i < j := by
      by_contra hcon
      have := hno j hop (by omega)
      simp [deleteSucceeds, hdel] at this
    rw [hd, hsz]
    refine ⟨by omega, ?_⟩
    rw [getElem?_deleted _ _ _ _ hjn hnl, if_pos hji]
    exact hv

theorem run_keeps [Inhabited T] (i : Nat) (v : T) (ops : List (Op T)) (a : Array T)
    (hwf : a.WF) (hlt : (i : Int) < a.size) (hv : a.data[i]? = some v)
    (hno : noDeleteUpTo (i : Int) a ops = true) :
    ∃ a1 : Array T, run a ops = some a1 ∧ a1.WF ∧ (i : Int) < a1.size ∧
      a1.data[i]? = some v := by
  induction ops generalizing a with
  | nil => exact ⟨a, rfl, hwf, hlt, hv⟩
  | cons op ops ih =>
    simp only [noDeleteUpTo, Bool.and_eq_true] at hno
    obtain ⟨hno1, hno2⟩ := hno
    obtain ⟨a1, hstep, hwf1, hlt1, hv1⟩ := step_keeps i v a op hwf hlt hv (by
      intro j hop hji
      subst hop
      simpa [hji] using hno1)
    rw [hstep] at hno2
    obtain ⟨a2, hrun, h2⟩ := ih a1 hwf1 hlt1 hv1 hno2
    exact ⟨a2, by simp [run, hstep, hrun], h2⟩

/-- C8: if `Append(v)` succeeds on an array state (satisfying the data-model invariant)
whose size is i, then after every later finite sequence of `Append`, `Get`, `Length`,
`Resize` and `Delete` calls, successful or failing and with arbitrary arguments, in which
no `Delete` succeeds at an index <= i, the sequence has run without a panic and `Get(i)`
returns `v` without error. -/
theorem Get_after_Append [Inhabited T] (a a1 : Array T) (v : T) (ops : List (Op T))
    (hwf : a.WF) (happ : a.Append v = some (a1, none))
    (hno : noDeleteUpTo a.size a1 ops = true) :
    ∃ a2 a3 : Array T, run a1 ops = some a2 ∧ a2.Get a.size = some (a3, v, none) := by
  obtain ⟨a1', hstep, hwf1, _, hshape⟩ := step_cases a (.Append v) hwf
  have he : a1' = a1 := by
    have := step_Append_eq happ
    rw [hstep] at this
    exact Option.some.inj this
  subst he
  have hroom : ¬ a.size ≥ a.data.length := by
    intro hfull
    unfold Array.Append at happ
    rw [if_pos hfull] at happ
    simp at happ
  obtain ⟨n, hn⟩ := Int.eq_ofNat_of_zero_le hwf.1
  have hlen : n < a.data.length := by omega
  have hok := Append_ok a v n hn hlen (fun h => (hwf.2.2 h).1)
  rw [hok] at happ
  have hdata : a1'.data = a.data.set n v := by
    rw [← (Prod.mk.inj (Option.some.inj happ)).1]
  have hsize : a1'.size = n + 1 := by
    rw [← (Prod.mk.inj (Option.some.inj happ)).1]
  rw [hn] at hno ⊢
  obtain ⟨a2, hrun, hwf2, hlt2, hv2⟩ := run_keeps n v ops a1' hwf1 (by omega)
    (by rw [hdata]; simp [List.getElem?_set, hlen]) hno
  exact ⟨a2, _, hrun, Get_ok a2 n v hlt2 hv2 (fun h => (hwf2.2.2 h).2.1)⟩

end array

namespace linkedlist

variable {T : Type}

/-! ## Traversals -/

theorem Node.toList_mk (d : T) (nx : Option (Node T)) :
    (Node.mk d nx).toList = d :: toListFrom nx := by
  cases nx <;> simp [Node.toList, toListFrom]

theorem Node.toList_eq (n : Node T) : n.toList = n.data :: toListFrom n.next := by
  cases n with
  | mk d nx => exact Node.toList_mk d nx

theorem LinkedList.traversal_eq (list : LinkedList T) :
    list.traversal = toListFrom list.head := by
  unfold LinkedList.traversal toListFrom
  cases list.head <;> rfl

/-! ## Remove -/

/-- The loop of `Remove`, started at a node whose data is not `v`: it ends without a
write when `v` does not occur in the chain, and otherwise unlinks the first node holding
`v`. -/
theorem Remove.loop_spec [DecidableEq T] (v : T) :
    ∀ (l : List T) (h : Node T), h.toList = l → h.data ≠ v →
      (v ∉ l → Remove.loop v h = none) ∧
      (v ∈ l → ∃ h1 : Node T, Remove.loop v h = some h1 ∧ h1.toList = l.erase v) := by
  intro l
  induction l with
  | nil =>
    intro h hl
    rw [Node.toList_eq] at hl
    cases hl
  | cons x xs ih =>
    intro h hl hne
    cases h with
    | mk d nx =>
      rw [Node.toList_mk] at hl
      obtain ⟨hx, hxs⟩ := List.cons.inj hl
      subst hx
      have hdv : d ≠ v := hne
      cases nx with
      | none =>
        simp only [toListFrom] at hxs
        subst hxs
        refine ⟨fun _ => by simp [Remove.loop], fun hin => ?_⟩
        simp only [List.mem_singleton] at hin
        exact absurd hin.symm hdv
      | some n =>
        simp only [toListFrom] at hxs
        by_cases hn : n.data = v
        · refine ⟨fun hnot => ?_, fun _ => ⟨.mk d n.next, by simp [Remove.loop, hn], ?_⟩⟩
          · exfalso
            apply hnot
            rw [← hxs, Node.toList_eq, hn]
            simp
          · rw [Node.toList_mk, ← hxs, Node.toList_eq n, hn]
            simp [List.erase_cons, hdv]
        · obtain ⟨ih1, ih2⟩ := ih n hxs hn
          refine ⟨fun hnot => ?_, fun hin => ?_⟩
          · have : v ∉ xs := fun h => hnot (List.mem_cons_of_mem _ h)
            simp [Remove.loop, hn, ih1 this]
          · have hin2 : v ∈ xs := by
              rcases List.mem_cons.mp hin with h | h
              · exact absurd h.symm hdv
              · exact h
            obtain ⟨h1, hl1, ht1⟩ := ih2 hin2
            refine ⟨.mk d (some h1), by simp [Remove.loop, hn, hl1], ?_⟩
            rw [Node.toList_mk]
            simp [toListFrom, ht1, List.erase_cons, hdv]

theorem Remove.record_ready (m : Metrics) (hm : m.removeReady) :
    ∃ m1 : Metrics, Remove.record m = some m1 := by
  obtain ⟨h1, h2⟩ := hm
  unfold Remove.record
  cases hc : m.RemoveCounter with
  | none => simp [hc] at h1
  | some c =>
    cases ht : m.RemoveDuration with
    | none => simp [ht] at h2
    | some t =>
      exact ⟨{ m with RemoveCounter := some (c + 1), RemoveDuration := some (t + 1) },
        by simp [hc, ht, Inc, UpdateSince]⟩

/-- The effect of `Remove` on the traversal when the value is present. -/
theorem Remove_present [DecidableEq T] (m : Metrics) (list : LinkedList T) (v : T)
    (hm : m.removeReady) (hin : v ∈ list.traversal) :
    ∃ (m1 : Metrics) (list1 : LinkedList T), list.Remove m v = some (m1, list1) ∧
      list1.traversal = list.traversal.erase v ∧ list1.length = list.length - 1 := by
  obtain ⟨m1, hm1⟩ := Remove.record_ready m hm
  rw [LinkedList.traversal_eq] at hin ⊢
  unfold LinkedList.Remove
  cases hh : list.head with
  | none => simp [hh, toListFrom] at hin
  | some h =>
    rw [hh] at hin
    simp only [toListFrom] at hin ⊢
    by_cases hd : h.data = v
    · refine ⟨m1, { head := h.next, length := list.length - 1 }, by simp [hd, hm1], ?_, rfl⟩
      rw [LinkedList.traversal_eq, Node.toList_eq h, hd]
      simp
    · obtain ⟨h1, hl1, ht1⟩ := (Remove.loop_spec v h.toList h rfl hd).2 hin
      refine ⟨m1, { head := some h1, length := list.length - 1 },
        by simp [hd, hl1, hm1], ?_, rfl⟩
      rw [LinkedList.traversal_eq]
      exact ht1

/-- C9: for every list whose traversal contains `v` (and with the remove metrics set up,
as after `NewLinkedList`), `Remove(v)` returns and yields a list whose traversal is the old
traversal with only its first occurrence of `v` deleted: the old traversal is
`pre ++ v :: post` with `v` not in `pre`, and the new one is `pre ++ post`; the length
decreases by exactly 1. -/
theorem Remove_first_match [DecidableEq T] (m : Metrics) (list : LinkedList T) (v : T)
    (hm : m.removeReady) (hin : v ∈ list.traversal) :
    ∃ (m1 : Metrics) (list1 : LinkedList T), list.Remove m v = some (m1, list1) ∧
      (∃ pre post : List T, list.traversal = pre ++ v :: post ∧ v ∉ pre ∧
        list1.traversal = pre ++ post) ∧
      list1.traversal = list.traversal.erase v ∧
      list1.length = list.length - 1 := by
  obtain ⟨m1, list1, hrem, htr, hlen⟩ := Remove_present m list v hm hin
  obtain ⟨pre, post, hpre, hsplit, herase⟩ := List.exists_erase_eq hin
  exact ⟨m1, list1, hrem, ⟨pre, post, hsplit, hpre, by rw [htr, herase]⟩, htr, hlen⟩

/-- C10: for every list, the empty list included, whose traversal does not contain `v`,
`Remove(v)` returns and leaves the list (node chain and length) and the metrics exactly as
they were; hence a second `Remove(v)` changes nothing either. -/
theorem Remove_absent [DecidableEq T] (m : Metrics) (list : LinkedList T) (v : T)
    (hnot : v ∉ list.traversal) :
    list.Remove m v = some (m, list) ∧
      ((list.Remove m v).bind fun r => r.2.Remove r.1 v) = some (m, list) := by
  have h1 : list.Remove m v = some (m, list) := by
    rw [LinkedList.traversal_eq] at hnot
    unfold LinkedList.Remove
    cases hh : list.head with
    | none => rfl
    | some h =>
      rw [hh] at hnot
      simp only [toListFrom] at hnot
      have hd : h.data ≠ v := by
        intro hd
        apply hnot
        rw [Node.toList_eq, hd]
        simp
      have := (Remove.loop_spec v h.toList h rfl hd).1 hnot
      simp [hd, this]
  exact ⟨h1, by rw [h1]; exact h1⟩

end linkedlist

namespace array

/-! ## Instances of the contracts on concrete states -/

theorem Append_success_witness :
    exampleArray.WF ∧ exampleArray.size < exampleArray.data.length ∧
      ∃ a1 : Array Int, exampleArray.Append 40 = some (a1, none) ∧
        a1.size = exampleArray.size + 1 ∧
        readAt a1.data exampleArray.size = some 40 ∧
        (∀ j : Int, j ≠ exampleArray.size → readAt a1.data j = readAt exampleArray.data j) ∧
        a1.data.length = exampleArray.data.length :=
  ⟨by decide, by decide, Append_success exampleArray 40 (by decide) (by decide)⟩

theorem Append_full_witness :
    fullArray.size = fullArray.data.length ∧
      fullArray.Append 40 = some (fullArray, some "array is full") :=
  ⟨by decide, Append_full fullArray 40 (by decide)⟩

theorem Get_contract_witness :
    exampleArray.WF ∧
      exampleArray.Get 5 = some (exampleArray, default, some "index out of bounds") ∧
      ∃ (a1 : Array Int) (x : Int), exampleArray.Get 1 = some (a1, x, none) ∧
        readAt exampleArray.data 1 = some x ∧ a1.data = exampleArray.data ∧
        a1.size = exampleArray.size :=
  ⟨by decide, (Get_contract exampleArray 5 (by decide)).2.1 (by decide),
    (Get_contract exampleArray 1 (by decide)).2.2 (by decide)⟩

theorem Delete_success_witness :
    exampleArray4.WF ∧ (0 : Int) ≤ 1 ∧ (1 : Int) < exampleArray4.size ∧
      ∃ a1 : Array Int, exampleArray4.Delete 1 = some (a1, none) ∧
        a1.size = exampleArray4.size - 1 ∧
        (∀ j : Int, j < 1 → readAt a1.data j = readAt exampleArray4.data j) ∧
        (∀ j : Int, 1 ≤ j → j < exampleArray4.size - 1 →
          readAt a1.data j = readAt exampleArray4.data (j + 1)) ∧
        readAt a1.data (exampleArray4.size - 1) = some default :=
  ⟨by decide, by decide, by decide,
    Delete_success exampleArray4 1 (by decide) (by decide) (by decide)⟩

theorem Delete_invalid_witness :
    exampleArray4.Delete 10 = some (exampleArray4, some "index out of bounds") ∧
      exampleArray4.Delete (-1) = some (exampleArray4, some "index out of bounds") :=
  ⟨(Delete_invalid exampleArray4 10).1 (by decide),
    (Delete_invalid exampleArray4 (-1)).1 (by decide)⟩

theorem exampleArray_reachable : Reachable exampleArray :=
  ⟨5, { MetricsEnabled := true }, [.Append 10, .Append 20, .Append 30], by decide,
    by decide⟩

theorem Resize_too_small_witness :
    (2 : Int) < exampleArray.size ∧
      exampleArray.Resize 2 =
        some (exampleArray,
          some "new capacity must be greater than or equal to the current size") :=
  ⟨by decide, Resize_too_small exampleArray 2 (by decide)⟩

theorem Get_after_Append_witness :
    exampleArray.WF ∧ exampleArray.Append 40 = some (exampleArray4, none) ∧
      noDeleteUpTo exampleArray.size exampleArray4
        [.Append 50, .Delete 4, .Resize 4, .Resize 2, .Get 9, .Length, .Delete (-1),
          .Resize 6, .Append 60] = true ∧
      ∃ a2 a3 : Array Int,
        run exampleArray4
          [.Append 50, .Delete 4, .Resize 4, .Resize 2, .Get 9, .Length, .Delete (-1),
            .Resize 6, .Append 60] = some a2 ∧
        a2.Get exampleArray.size = some (a3, 40, none) :=
  ⟨by decide, by decide, by decide,
    Get_after_Append exampleArray exampleArray4 40 _ (by decide) (by decide) (by decide)⟩

end array

namespace linkedlist

theorem Remove_first_match_witness :
    (initMetrics nilMetrics).removeReady ∧ 20 ∈ exampleList.traversal ∧
      ∃ (m1 : Metrics) (list1 : LinkedList Nat),
        exampleList.Remove (initMetrics nilMetrics) 20 = some (m1, list1) ∧
        (∃ pre post : List Nat, exampleList.traversal = pre ++ 20 :: post ∧ 20 ∉ pre ∧
          list1.traversal = pre ++ post) ∧
        list1.traversal = exampleList.traversal.erase 20 ∧
        list1.length = exampleList.length - 1 :=
  ⟨by decide, by decide,
    Remove_first_match (initMetrics nilMetrics) exampleList 20 (by decide) (by decide)⟩

theorem Remove_absent_witness :
    40 ∉ exampleList.traversal ∧
      exampleList.Remove nilMetrics 40 = some (nilMetrics, exampleList) ∧
      ((exampleList.Remove nilMetrics 40).bind fun r => r.2.Remove r.1 40) =
        some (nilMetrics, exampleList) :=
  ⟨by decide, Remove_absent nilMetrics exampleList 40 (by decide)⟩

end linkedlist

namespace linkedlist

variable {T : Type}

/-! ## Add -/

/-- The loop of `Add` links the new node after the last node of the chain. -/
theorem Add.loop_toList [DecidableEq T] (newNode : Node T) :
    ∀ (l : List T) (h : Node T), h.toList = l →
      (Add.loop newNode h).toList = l ++ newNode.toList := by
  intro l
  induction l with
  | nil =>
    intro h hl
    rw [Node.toList_eq] at hl
    cases hl
  | cons x xs ih =>
    intro h hl
    cases h with
    | mk d nx =>
      rw [Node.toList_mk] at hl
      obtain ⟨hx, hxs⟩ := List.cons.inj hl
      subst hx
      cases nx with
      | none =>
        simp only [toListFrom] at hxs
        subst hxs
        simp [Add.loop, Node.toList_mk, toListFrom]
      | some n =>
        simp only [toListFrom] at hxs
        simp [Add.loop, Node.toList_mk, toListFrom, ih n hxs]

theorem Add_ok [DecidableEq T] (m : Metrics) (list : LinkedList T) (v : T)
    (hm : m.addReady) :
    ∃ list1 : LinkedList T,
      list.Add m v =
        some ({ m with AddCounter := m.AddCounter.map (· + 1),
                       AddDuration := m.AddDuration.map (· + 1) }, list1) ∧
      list1.traversal = list.traversal ++ [v] ∧ list1.length = list.length + 1 ∧
      (list.head = none → list1.head = some (.mk v none)) := by
  obtain ⟨h1, h2⟩ := hm
  cases hc : m.AddCounter with
  | none => simp [hc] at h1
  | some c =>
    cases ht : m.AddDuration with
    | none => simp [ht] at h2
    | some t =>
      refine ⟨_, by simp only [LinkedList.Add, Inc, UpdateSince, hc, ht]; rfl, ?_, rfl, ?_⟩
      · rw [LinkedList.traversal_eq, LinkedList.traversal_eq]
        cases hh : list.head with
        | none => simp [toListFrom, Node.toList]
        | some h =>
          simp only [toListFrom]
          rw [Add.loop_toList _ h.toList h rfl]
          simp [Node.toList]
      · intro hh
        simp [hh]

/-- C11: for every list and every value `v` (with the add counter and timer set up, as
after `NewLinkedList`), `Add(v)` returns normally, the traversal afterwards is the old
traversal followed by `v` (on the empty list the new node is the head), and the length
increases by exactly 1. -/
theorem Add_appends [DecidableEq T] (m : Metrics) (list : LinkedList T) (v : T)
    (hm : m.addReady) :
    ∃ (m1 : Metrics) (list1 : LinkedList T), list.Add m v = some (m1, list1) ∧
      list1.traversal = list.traversal ++ [v] ∧ list1.length = list.length + 1 ∧
      (list.head = none → list1.head = some (.mk v none)) := by
  obtain ⟨list1, h1, h2, h3, h4⟩ := Add_ok m list v hm
  exact ⟨_, list1, h1, h2, h3, h4⟩

/-! ## Find -/

/-- The loop of `Find`: nil when the value does not occur from the pointer on, and
otherwise the first node holding it. -/
theorem Find.loop_first [DecidableEq T] (v : T) :
    ∀ (l : List T) (p : Option (Node T)), toListFrom p = l →
      (v ∉ l → Find.loop v p = none) ∧
      (v ∈ l → ∃ (node : Node T) (pre post : List T), Find.loop v p = some node ∧
        l = pre ++ v :: post ∧ v ∉ pre ∧ node.toList = v :: post) := by
  intro l
  induction l with
  | nil =>
    intro p hp
    cases p with
    | none => exact ⟨fun _ => by simp [Find.loop], fun h => by simp at h⟩
    | some n =>
      simp only [toListFrom] at hp
      rw [Node.toList_eq] at hp
      cases hp
  | cons x xs ih =>
    intro p hp
    cases p with
    | none => simp [toListFrom] at hp
    | some n =>
      cases n with
      | mk d nx =>
        simp only [toListFrom] at hp
        rw [Node.toList_mk] at hp
        obtain ⟨hx, hxs⟩ := List.cons.inj hp
        subst hx
        by_cases hd : d = v
        · subst hd
          refine ⟨fun hnot => absurd (List.mem_cons_self _ _) hnot, fun _ => ?_⟩
          refine ⟨.mk d nx, [], xs, by simp [Find.loop], by simp, by simp, ?_⟩
          rw [Node.toList_mk, hxs]
        · obtain ⟨ih1, ih2⟩ := ih nx hxs
          refine ⟨fun hnot => ?_, fun hin => ?_⟩
          · have : v ∉ xs := fun h => hnot (List.mem_cons_of_mem _ h)
            simp [Find.loop, hd, ih1 this]
          · have hin2 : v ∈ xs := by
              rcases List.mem_cons.mp hin with h | h
              · exact absurd h.symm hd
              · exact h
            obtain ⟨node, pre, post, hf, hsplit, hpre, hnode⟩ := ih2 hin2
            refine ⟨node, d :: pre, post, by simp [Find.loop, hd, hf], by simp [hsplit],
              ?_, hnode⟩
            intro hmem
            rcases List.mem_cons.mp hmem with h | h
            · exact hd h.symm
            · exact hpre h

theorem Find_hit [DecidableEq T] (m : Metrics) (list : LinkedList T) (v : T)
    (hm : m.findReady) (hin : v ∈ list.traversal) :
    ∃ (node : Node T) (pre post : List T),
      list.Find m v =
        some ({ m with FindCounter := m.FindCounter.map (· + 1),
                       FindDuration := m.FindDuration.map (· + 1) }, some node) ∧
      list.traversal = pre ++ v :: post ∧ v ∉ pre ∧ node.toList = v :: post := by
  obtain ⟨h1, h2⟩ := hm
  rw [LinkedList.traversal_eq] at hin ⊢
  obtain ⟨node, pre, post, hf, hsplit, hpre, hnode⟩ :=
    (Find.loop_first v _ list.head rfl).2 hin
  cases hc : m.FindCounter with
  | none => simp [hc] at h1
  | some c =>
    cases ht : m.FindDuration with
    | none => simp [ht] at h2
    | some t =>
      refine ⟨node, pre, post, ?_, hsplit, hpre, hnode⟩
      simp only [LinkedList.Find, hf, Inc, UpdateSince, hc, ht]
      rfl

theorem Find_miss [DecidableEq T] (m : Metrics) (list : LinkedList T) (v : T)
    (hnot : v ∉ list.traversal) : list.Find m v = some (m, none) := by
  rw [LinkedList.traversal_eq] at hnot
  have := (Find.loop_first v _ list.head rfl).1 hnot
  simp only [LinkedList.Find, this]

/-- C12: for every list and value `v` (with the find counter and timer set up, as after
`NewLinkedList`), `Find(v)` returns a node if and only if `v` occurs in the traversal; when
it does, the node is the first one holding `v`: its data is `v`, the traversal is
`pre ++ v :: post` with `v` not in `pre`, and the chain from the node is `v :: post`;
otherwise `Find` returns nil. The call leaves the list, hence its traversal and length,
unchanged. -/
theorem Find_first_match [DecidableEq T] (m : Metrics) (list : LinkedList T) (v : T)
    (hm : m.findReady) :
    ((∃ (m1 : Metrics) (node : Node T), list.Find m v = some (m1, some node)) ↔
        v ∈ list.traversal) ∧
      (v ∈ list.traversal →
        ∃ (m1 : Metrics) (node : Node T) (pre post : List T),
          list.Find m v = some (m1, some node) ∧ node.data = v ∧
          list.traversal = pre ++ v :: post ∧ v ∉ pre ∧ node.toList = v :: post) ∧
      (v ∉ list.traversal → list.Find m v = some (m, none)) ∧
      (step (m, list) (.Find v)).map Prod.snd = some list := by
  have hhit : v ∈ list.traversal →
      ∃ (m1 : Metrics) (node : Node T) (pre post : List T),
        list.Find m v = some (m1, some node) ∧ node.data = v ∧
        list.traversal = pre ++ v :: post ∧ v ∉ pre ∧ node.toList = v :: post := by
    intro hin
    obtain ⟨node, pre, post, hf, hsplit, hpre, hnode⟩ := Find_hit m list v hm hin
    refine ⟨_, node, pre, post, hf, ?_, hsplit, hpre, hnode⟩
    rw [Node.toList_eq] at hnode
    exact (List.cons.inj hnode).1
  refine ⟨⟨?_, fun hin => ?_⟩, hhit, Find_miss m list v, ?_⟩
  · rintro ⟨m1, node, hf⟩
    by_contra hnot
    rw [Find_miss m list v hnot] at hf
    simp at hf
  · obtain ⟨m1, node, _, _, hf, _⟩ := hhit hin
    exact ⟨m1, node, hf⟩
  · by_cases hin : v ∈ list.traversal
    · obtain ⟨m1, node, _, _, hf, _⟩ := hhit hin
      simp [step, hf]
    · simp [step, Find_miss m list v hin]

end linkedlist

namespace linkedlist

variable {T : Type}

/-! ## Sequences of calls on a list -/

theorem Remove.record_ok (m : Metrics) (hm : m.removeReady) :
    Remove.record m =
      some { m with RemoveCounter := m.RemoveCounter.map (· + 1),
                    RemoveDuration := m.RemoveDuration.map (· + 1) } := by
  obtain ⟨h1, h2⟩ := hm
  cases hc : m.RemoveCounter with
  | none => simp [hc] at h1
  | some c =>
    cases ht : m.RemoveDuration with
    | none => simp [ht] at h2
    | some t =>
      simp only [Remove.record, Inc, UpdateSince, hc, ht]
      rfl

/-- A `Remove` that returns has either changed nothing or recorded one removal. -/
theorem Remove_metrics [DecidableEq T] (m m1 : Metrics) (list list1 : LinkedList T) (v : T)
    (h : list.Remove m v = some (m1, list1)) :
    (m1 = m ∧ list1 = list) ∨ Remove.record m = some m1 := by
  unfold LinkedList.Remove at h
  cases hh : list.head with
  | none =>
    rw [hh] at h
    simp only [Option.some.injEq, Prod.mk.injEq] at h
    exact Or.inl ⟨h.1.symm, h.2.symm⟩
  | some hd =>
    rw [hh] at h
    simp only at h
    cases hr : Remove.record m with
    | none =>
      left
      by_cases hd1 : hd.data = v
      · simp [hd1, hr] at h
      · cases hl : Remove.loop v hd with
        | none =>
          simp only [hd1, hl, if_false, Option.some.injEq, Prod.mk.injEq] at h
          exact ⟨h.1.symm, h.2.symm⟩
        | some h1 => simp [hd1, hl, hr] at h
    | some mr =>
      by_cases hd1 : hd.data = v
      · simp only [hd1, if_true, hr, Option.bind_eq_bind, Option.some_bind, Option.some.injEq,
          Prod.mk.injEq] at h
        exact Or.inr (by rw [h.1])
      · cases hl : Remove.loop v hd with
        | none =>
          simp only [hd1, hl, if_false, Option.some.injEq, Prod.mk.injEq] at h
          exact Or.inl ⟨h.1.symm, h.2.symm⟩
        | some h1 =>
          simp only [hd1, hl, if_false, hr, Option.bind_eq_bind, Option.some_bind,
            Option.some.injEq, Prod.mk.injEq] at h
          exact Or.inr (by rw [h.1])

theorem Remove_hit [DecidableEq T] (m : Metrics) (list : LinkedList T) (v : T)
    (hm : m.removeReady) (hin : v ∈ list.traversal) :
    ∃ list1 : LinkedList T,
      list.Remove m v =
        some ({ m with RemoveCounter := m.RemoveCounter.map (· + 1),
                       RemoveDuration := m.RemoveDuration.map (· + 1) }, list1) ∧
      list1.traversal = list.traversal.erase v ∧ list1.length = list.length - 1 := by
  obtain ⟨m1, list1, hrem, htr, hlen⟩ := Remove_present m list v hm hin
  refine ⟨list1, ?_, htr, hlen⟩
  rcases Remove_metrics m m1 list list1 v hrem with ⟨_, hl⟩ | hrec
  · exfalso
    rw [hl] at htr
    have := congrArg List.length htr
    rw [List.length_erase_of_mem hin] at this
    have hpos : 0 < list.traversal.length := List.length_pos_of_mem hin
    omega
  · rw [Remove.record_ok m hm] at hrec
    rw [hrem, ← Option.some.inj hrec]

theorem Remove_miss [DecidableEq T] (m : Metrics) (list : LinkedList T) (v : T)
    (hnot : v ∉ list.traversal) : list.Remove m v = some (m, list) := by
  rw [LinkedList.traversal_eq] at hnot
  unfold LinkedList.Remove
  cases hh : list.head with
  | none => rfl
  | some h =>
    rw [hh] at hnot
    simp only [toListFrom] at hnot
    have hd : h.data ≠ v := by
      intro hd
      apply hnot
      rw [Node.toList_eq, hd]
      simp
    have := (Remove.loop_spec v h.toList h rfl hd).1 hnot
    simp [hd, this]

theorem map_add_zero (c : Option Nat) : c.map (· + 0) = c := by
  cases c <;> rfl

theorem map_add_add (c : Option Nat) (x y : Nat) :
    (c.map (· + x)).map (· + y) = c.map (· + (x + y)) := by
  cases c with
  | none => rfl
  | some k => simp [Nat.add_assoc]

theorem step_Find_eq [DecidableEq T] {m m1 : Metrics} {list : LinkedList T} {v : T}
    {r : Option (Node T)} (h : list.Find m v = some (m1, r)) :
    step (m, list) (.Find v) = some (m1, list) := by
  simp only [step, h]
  rfl

/-- What one call does from a state whose metric variables are set up: it returns, the
variables stay set up, each count grows by one exactly for the calls that record, and a
length field that equals the number of nodes still does. -/
theorem step_spec [DecidableEq T] (s : Metrics × LinkedList T) (op : Op T)
    (hm : s.1.ready) :
    ∃ s1 : Metrics × LinkedList T, step s op = some s1 ∧ s1.1.ready ∧
      s1.1.AddCounter = s.1.AddCounter.map (· + tick (isAdd op)) ∧
      s1.1.AddDuration = s.1.AddDuration.map (· + tick (isAdd op)) ∧
      s1.1.RemoveCounter = s.1.RemoveCounter.map (· + tick (removeHit s op)) ∧
      s1.1.RemoveDuration = s.1.RemoveDuration.map (· + tick (removeHit s op)) ∧
      s1.1.FindCounter = s.1.FindCounter.map (· + tick (findHit s op)) ∧
      s1.1.FindDuration = s.1.FindDuration.map (· + tick (findHit s op)) ∧
      (s.2.length = s.2.traversal.length → s1.2.length = s1.2.traversal.length) := by
  obtain ⟨m, list⟩ := s
  obtain ⟨ha, hr, hf⟩ := hm
  have hsome : ∀ c : Option Nat, c.isSome = true → (c.map (· + 1)).isSome = true := by
    intro c hc
    cases c <;> simp_all
  cases op with
  | Add v =>
    obtain ⟨list1, h1, h2, h3, _⟩ := Add_ok m list v ha
    refine ⟨_, h1, ⟨⟨hsome _ ha.1, hsome _ ha.2⟩, hr, hf⟩, ?_, ?_, ?_, ?_, ?_, ?_, ?_⟩
    · simp [isAdd, tick]
    · simp [isAdd, tick]
    · simp [removeHit, tick, map_add_zero]
    · simp [removeHit, tick, map_add_zero]
    · simp [findHit, tick, map_add_zero]
    · simp [findHit, tick, map_add_zero]
    · intro hlen
      simp only at hlen ⊢
      rw [h3, h2, hlen]
      simp
  | Remove v =>
    by_cases hin : v ∈ list.traversal
    · obtain ⟨list1, h1, h2, h3⟩ := Remove_hit m list v hr hin
      refine ⟨_, h1, ⟨ha, ⟨hsome _ hr.1, hsome _ hr.2⟩, hf⟩, ?_, ?_, ?_, ?_, ?_, ?_, ?_⟩
      · simp [isAdd, tick, map_add_zero]
      · simp [isAdd, tick, map_add_zero]
      · simp [removeHit, tick, hin]
      · simp [removeHit, tick, hin]
      · simp [findHit, tick, map_add_zero]
      · simp [findHit, tick, map_add_zero]
      · intro hlen
        simp only at hlen ⊢
        rw [h3, h2, hlen, List.length_erase_of_mem hin]
        have hpos : 0 < list.traversal.length := List.length_pos_of_mem hin
        omega
    · refine ⟨(m, list), Remove_miss m list v hin, ⟨ha, hr, hf⟩, ?_, ?_, ?_, ?_, ?_, ?_,
        fun h => h⟩
      · simp [isAdd, tick, map_add_zero]
      · simp [isAdd, tick, map_add_zero]
      · simp [removeHit, tick, hin, map_add_zero]
      · simp [removeHit, tick, hin, map_add_zero]
      · simp [findHit, tick, map_add_zero]
      · simp [findHit, tick, map_add_zero]
  | Find v =>
    by_cases hin : v ∈ list.traversal
    · obtain ⟨node, pre, post, h1, _⟩ := Find_hit m list v hf hin
      refine ⟨(_, list), step_Find_eq h1,
        ⟨ha, hr, ⟨hsome _ hf.1, hsome _ hf.2⟩⟩, ?_, ?_, ?_, ?_, ?_, ?_, fun h => h⟩
      · simp [isAdd, tick, map_add_zero]
      · simp [isAdd, tick, map_add_zero]
      · simp [removeHit, tick, map_add_zero]
      · simp [removeHit, tick, map_add_zero]
      · simp [findHit, tick, h1]
      · simp [findHit, tick, h1]
    · have h1 := Find_miss m list v hin
      refine ⟨(m, list), step_Find_eq h1, ⟨ha, hr, hf⟩, ?_, ?_, ?_, ?_, ?_, ?_,
        fun h => h⟩
      · simp [isAdd, tick, map_add_zero]
      · simp [isAdd, tick, map_add_zero]
      · simp [removeHit, tick, map_add_zero]
      · simp [removeHit, tick, map_add_zero]
      · simp [findHit, tick, h1, map_add_zero]
      · simp [findHit, tick, h1, map_add_zero]

end linkedlist

namespace linkedlist

variable {T : Type}

theorem countAdds_cons (op : Op T) (ops : List (Op T)) :
    countAdds (op :: ops) = tick (isAdd op) + countAdds ops := by
  cases op <;> simp [countAdds, tick, isAdd, Nat.add_comm]

theorem countCalls_cons [DecidableEq T] (p : Metrics × LinkedList T → Op T → Bool)
    (s s1 : Metrics × LinkedList T) (op : Op T) (ops : List (Op T))
    (h : step s op = some s1) :
    countCalls p s (op :: ops) = tick (p s op) + countCalls p s1 ops := by
  simp [countCalls, tick, h]

/-- The effect of a finite sequence of calls from a state whose metric variables are set
up: the sequence runs to its end, and each count has grown by the number of calls that
record in it. -/
theorem run_spec [DecidableEq T] (ops : List (Op T)) :
    ∀ s : Metrics × LinkedList T, s.1.ready →
      ∃ s1 : Metrics × LinkedList T, run s ops = some s1 ∧ s1.1.ready ∧
        s1.1.AddCounter = s.1.AddCounter.map (· + countAdds ops) ∧
        s1.1.AddDuration = s.1.AddDuration.map (· + countAdds ops) ∧
        s1.1.RemoveCounter = s.1.RemoveCounter.map (· + countCalls removeHit s ops) ∧
        s1.1.RemoveDuration = s.1.RemoveDuration.map (· + countCalls removeHit s ops) ∧
        s1.1.FindCounter = s.1.FindCounter.map (· + countCalls findHit s ops) ∧
        s1.1.FindDuration = s.1.FindDuration.map (· + countCalls findHit s ops) ∧
        (s.2.length = s.2.traversal.length → s1.2.length = s1.2.traversal.length) := by
  induction ops with
  | nil =>
    intro s hm
    exact ⟨s, rfl, hm, by simp [countAdds, map_add_zero], by simp [countAdds, map_add_zero],
      by simp [countCalls, map_add_zero], by simp [countCalls, map_add_zero],
      by simp [countCalls, map_add_zero], by simp [countCalls, map_add_zero], fun h => h⟩
  | cons op ops ih =>
    intro s hm
    obtain ⟨s1, hstep, hm1, a1, a2, r1, r2, f1, f2, hl1⟩ := step_spec s op hm
    obtain ⟨s2, hrun, hm2, b1, b2, q1, q2, g1, g2, hl2⟩ := ih s1 hm1
    refine ⟨s2, by simp [run, hstep, hrun], hm2, ?_, ?_, ?_, ?_, ?_, ?_,
      fun h => hl2 (hl1 h)⟩
    · rw [b1, a1, map_add_add, countAdds_cons]
    · rw [b2, a2, map_add_add, countAdds_cons]
    · rw [q1, r1, map_add_add, countCalls_cons _ _ _ _ _ hstep]
    · rw [q2, r2, map_add_add, countCalls_cons _ _ _ _ _ hstep]
    · rw [g1, f1, map_add_add, countCalls_cons _ _ _ _ _ hstep]
    · rw [g2, f2, map_add_add, countCalls_cons _ _ _ _ _ hstep]

theorem NewLinkedList_ready (m : Metrics) : (NewLinkedList T m).1.ready := by
  simp [NewLinkedList, initMetrics, Metrics.ready, Metrics.addReady, Metrics.removeReady,
    Metrics.findReady]

/-- C14: for the list made by `NewLinkedList` (head nil, length 0), every finite sequence
of `Add`, `Remove` and `Find` calls runs to its end, and afterwards the length field
equals the number of nodes reached from `head` through `next`. -/
theorem length_invariant [DecidableEq T] (m : Metrics) (ops : List (Op T)) :
    (NewLinkedList T m).2.head = none ∧ (NewLinkedList T m).2.length = 0 ∧
      ∃ (m1 : Metrics) (list1 : LinkedList T),
        run (NewLinkedList T m) ops = some (m1, list1) ∧
        list1.length = list1.traversal.length := by
  obtain ⟨s1, hrun, _, _, _, _, _, _, _, hlen⟩ :=
    run_spec ops (NewLinkedList T m) (NewLinkedList_ready m)
  exact ⟨rfl, rfl, s1.1, s1.2, hrun, hlen (by simp [NewLinkedList, LinkedList.traversal])⟩

/-- C17: after `NewLinkedList()` followed by any finite sequence of `Add`, `Remove` and
`Find` calls on that list, the count of `AddCounter` and the number of samples of
`AddDuration` equal the number of `Add` calls; those of `RemoveCounter` and
`RemoveDuration` equal the number of `Remove` calls whose value was in the list when
called; those of `FindCounter` and `FindDuration` equal the number of `Find` calls that
returned a node. -/
theorem metric_accounting [DecidableEq T] (m : Metrics) (ops : List (Op T)) :
    ∃ (m1 : Metrics) (list1 : LinkedList T),
      run (NewLinkedList T m) ops = some (m1, list1) ∧
      m1.AddCounter = some (countAdds ops) ∧
      m1.AddDuration = some (countAdds ops) ∧
      m1.RemoveCounter = some (countCalls removeHit (NewLinkedList T m) ops) ∧
      m1.RemoveDuration = some (countCalls removeHit (NewLinkedList T m) ops) ∧
      m1.FindCounter = some (countCalls findHit (NewLinkedList T m) ops) ∧
      m1.FindDuration = some (countCalls findHit (NewLinkedList T m) ops) := by
  obtain ⟨s1, hrun, _, a1, a2, r1, r2, f1, f2, _⟩ :=
    run_spec ops (NewLinkedList T m) (NewLinkedList_ready m)
  refine ⟨s1.1, s1.2, hrun, ?_, ?_, ?_, ?_, ?_, ?_⟩
  · rw [a1]; simp [NewLinkedList, initMetrics]
  · rw [a2]; simp [NewLinkedList, initMetrics]
  · rw [r1]; simp [NewLinkedList, initMetrics]
  · rw [r2]; simp [NewLinkedList, initMetrics]
  · rw [f1]; simp [NewLinkedList, initMetrics]
  · rw [f2]; simp [NewLinkedList, initMetrics]

/-- Counterexample to C19 as stated: the counts do not survive a second `NewLinkedList`.
After `NewLinkedList`, `Add(10)`, `Add(20)`, `Remove(10)` and `Find(20)` the three counters
hold 2, 1 and 1; after a further `NewLinkedList` they hold 0, 0 and 0, and so do the
timers. -/
theorem NewLinkedList_resets_counts :
    (run (NewLinkedList Nat nilMetrics) [.Add 10, .Add 20, .Remove 10, .Find 20]).map
        (fun s =>
          ((s.1.AddCounter, s.1.RemoveCounter, s.1.FindCounter),
            ((NewLinkedList Nat s.1).1.AddCounter, (NewLinkedList Nat s.1).1.RemoveCounter,
              (NewLinkedList Nat s.1).1.FindCounter),
            ((NewLinkedList Nat s.1).1.AddDuration, (NewLinkedList Nat s.1).1.RemoveDuration,
              (NewLinkedList Nat s.1).1.FindDuration))) =
      some ((some 2, some 1, some 1), (some 0, some 0, some 0), (some 0, some 0, some 0)) := by
  simp [run, step, NewLinkedList, initMetrics, nilMetrics, LinkedList.Add, LinkedList.Remove,
    LinkedList.Find, Find.loop, Remove.record, Remove.loop, Add.loop, Inc, UpdateSince,
    Node.data, Node.next]

end linkedlist

namespace array

variable {T : Type}

/-! ## Sequences of calls from `NewArray` -/

/-- C13: for an array made by `NewArray` with a capacity >= 0, every finite sequence of
`Append`, `Get`, `Length`, `Resize` and `Delete` calls with arbitrary arguments runs to its
end, and afterwards 0 <= size <= capacity (`len(data)`). -/
theorem size_invariant [Inhabited T] (capacity : Int) (config : ArrayConfig)
    (ops : List (Op T)) (hcap : 0 ≤ capacity) :
    ∃ a0 a : Array T, NewArray T capacity config = some a0 ∧ run a0 ops = some a ∧
      0 ≤ a.size ∧ a.size ≤ a.data.length := by
  obtain ⟨a0, h0, hwf0, _⟩ := NewArray_WF (T := T) capacity config hcap
  obtain ⟨a, hrun, hwf⟩ := run_WF ops a0 hwf0
  exact ⟨a0, a, h0, hrun, hwf.1, hwf.2.1⟩

end array

namespace array

variable {T : Type}

/-! ## The counters of the array -/

theorem counter_add_zero (c : Option Nat) : c.map (· + 0) = c := by
  cases c <;> rfl

theorem counter_add_add (c : Option Nat) (x y : Nat) :
    (c.map (· + x)).map (· + y) = c.map (· + (x + y)) := by
  cases c with
  | none => rfl
  | some k => simp [Nat.add_assoc]

/-- What one call does to the counters of a state with metrics enabled: each counter
grows by one exactly when the call is one it counts and returns no error. -/
theorem step_counters [Inhabited T] (a : Array T) (op : Op T) (hwf : a.WF)
    (hen : a.config.MetricsEnabled = true) :
    ∃ a1 : Array T, step a op = some a1 ∧ a1.WF ∧ a1.config.MetricsEnabled = true ∧
      a1.appendCounter = a.appendCounter.map (· + (if appendOk a op then 1 else 0)) ∧
      a1.getCounter = a.getCounter.map (· + (if getOk a op then 1 else 0)) ∧
      a1.resizeCounter =
        a.resizeCounter.map
          (· + ((if resizeOk a op then 1 else 0) + (if deleteOk a op then 1 else 0))) := by
  obtain ⟨a1, hstep, hwf1, hcfg, _⟩ := step_cases a op hwf
  refine ⟨a1, hstep, hwf1, by rw [hcfg]; exact hen, ?_⟩
  obtain ⟨hs, hle, hc⟩ := hwf
  obtain ⟨n, hn⟩ := Int.eq_ofNat_of_zero_le hs
  cases op with
  | Append v =>
    by_cases hfull : a.size ≥ a.data.length
    · have h : a.Append v = some (a, some "array is full") := by
        unfold Array.Append
        rw [if_pos hfull]
      rw [step_Append_eq h] at hstep
      cases hstep
      simp [appendOk, h, getOk, resizeOk, deleteOk, counter_add_zero]
    · have h := Append_ok a v n hn (by omega) (fun h => (hc h).1)
      rw [step_Append_eq h] at hstep
      cases hstep
      simp [appendOk, h, getOk, resizeOk, deleteOk, bump, hen, counter_add_zero]
  | Get index =>
    by_cases hbad : index < 0 ∨ index ≥ a.size
    · have h : a.Get index = some (a, default, some "index out of bounds") := by
        unfold Array.Get
        rw [if_pos hbad]
      rw [step_Get_eq h] at hstep
      cases hstep
      simp [appendOk, h, getOk, resizeOk, deleteOk, counter_add_zero]
    · obtain ⟨i, hi⟩ := Int.eq_ofNat_of_zero_le (show 0 ≤ index by omega)
      subst hi
      have hlt : i < a.data.length := by omega
      have h := Get_ok a i (a.data[i]) (by omega) (List.getElem?_eq_getElem hlt)
        (fun h => (hc h).2.1)
      rw [step_Get_eq h] at hstep
      cases hstep
      simp [appendOk, h, getOk, resizeOk, deleteOk, bump, hen, counter_add_zero]
  | Length =>
    simp only [step, Option.some.injEq] at hstep
    subst hstep
    simp [appendOk, getOk, resizeOk, deleteOk, counter_add_zero]
  | Resize newCapacity =>
    by_cases hsmall : newCapacity < a.size
    · have h : a.Resize newCapacity = some (a,
          some "new capacity must be greater than or equal to the current size") := by
        unfold Array.Resize
        rw [if_pos hsmall]
      rw [step_Resize_eq h] at hstep
      cases hstep
      simp [appendOk, h, getOk, resizeOk, deleteOk, counter_add_zero]
    · obtain ⟨k, hk⟩ := Int.eq_ofNat_of_zero_le (show 0 ≤ newCapacity by omega)
      subst hk
      have h := Resize_ok a k (by omega) (fun h => (hc h).2.2)
      rw [step_Resize_eq h] at hstep
      cases hstep
      simp [appendOk, h, getOk, resizeOk, deleteOk, bump, hen, counter_add_zero]
  | Delete index =>
    by_cases hbad : index < 0 ∨ index ≥ a.size
    · have h : a.Delete index = some (a, some "index out of bounds") := by
        unfold Array.Delete
        rw [if_pos hbad]
      rw [step_Delete_eq h] at hstep
      cases hstep
      simp [appendOk, h, getOk, resizeOk, deleteOk, deleteSucceeds, counter_add_zero]
    · obtain ⟨i, hi⟩ := Int.eq_ofNat_of_zero_le (show 0 ≤ index by omega)
      subst hi
      have h := Delete_ok a i n hn (by omega) (by omega) (fun h => (hc h).2.2)
      rw [step_Delete_eq h] at hstep
      cases hstep
      simp [appendOk, h, getOk, resizeOk, deleteOk, deleteSucceeds, bump, hen,
        counter_add_zero]

theorem countCalls_step [Inhabited T] (p : Array T → Op T → Bool) (a a1 : Array T)
    (op : Op T) (ops : List (Op T)) (h : step a op = some a1) :
    countCalls p a (op :: ops) = (if p a op then 1 else 0) + countCalls p a1 ops := by
  simp [countCalls, h]

theorem run_counters [Inhabited T] (ops : List (Op T)) :
    ∀ a : Array T, a.WF → a.config.MetricsEnabled = true →
      ∃ a1 : Array T, run a ops = some a1 ∧
        a1.appendCounter = a.appendCounter.map (· + countCalls appendOk a ops) ∧
        a1.getCounter = a.getCounter.map (· + countCalls getOk a ops) ∧
        a1.resizeCounter =
          a.resizeCounter.map (· + (countCalls resizeOk a ops + countCalls deleteOk a ops)) := by
  induction ops with
  | nil =>
    intro a _ _
    exact ⟨a, rfl, by simp [countCalls, counter_add_zero],
      by simp [countCalls, counter_add_zero], by simp [countCalls, counter_add_zero]⟩
  | cons op ops ih =>
    intro a hwf hen
    obtain ⟨a1, hstep, hwf1, hen1, c1, c2, c3⟩ := step_counters a op hwf hen
    obtain ⟨a2, hrun, d1, d2, d3⟩ := ih a1 hwf1 hen1
    refine ⟨a2, by simp [run, hstep, hrun], ?_, ?_, ?_⟩
    · rw [d1, c1, counter_add_add, countCalls_step _ _ _ _ _ hstep]
    · rw [d2, c2, counter_add_add, countCalls_step _ _ _ _ _ hstep]
    · rw [d3, c3, counter_add_add, countCalls_step _ _ _ _ _ hstep,
        countCalls_step _ _ _ _ _ hstep]
      congr 1
      funext x
      omega

/-- C18: for an array made by `NewArray` with `MetricsEnabled = true` (and a capacity
>= 0), after any finite sequence of calls the append counter equals the number of `Append`
calls that returned no error, the get counter equals the number of `Get` calls that
returned no error, and the resize counter equals the number of `Resize` calls plus the
number of `Delete` calls that returned no error; calls that return an error add nothing. -/
theorem counter_accounting [Inhabited T] (capacity : Int) (ops : List (Op T))
    (hcap : 0 ≤ capacity) :
    ∃ a0 a : Array T, NewArray T capacity { MetricsEnabled := true } = some a0 ∧
      run a0 ops = some a ∧
      a.appendCounter = some (countCalls appendOk a0 ops) ∧
      a.getCounter = some (countCalls getOk a0 ops) ∧
      a.resizeCounter = some (countCalls resizeOk a0 ops + countCalls deleteOk a0 ops) := by
  obtain ⟨a0, h0, hwf0, _, _, hcfg⟩ :=
    NewArray_WF (T := T) capacity { MetricsEnabled := true } hcap
  have hen : a0.config.MetricsEnabled = true := by rw [hcfg]
  obtain ⟨a, hrun, c1, c2, c3⟩ := run_counters ops a0 hwf0 hen
  have hz : a0.appendCounter = some 0 ∧ a0.getCounter = some 0 ∧
      a0.resizeCounter = some 0 := by
    unfold NewArray make at h0
    rw [if_neg (by omega)] at h0
    simp only [Option.bind_eq_bind, Option.some_bind, if_true, Option.some.injEq] at h0
    subst h0
    exact ⟨rfl, rfl, rfl⟩
  refine ⟨a0, a, h0, hrun, ?_, ?_, ?_⟩
  · rw [c1, hz.1]; simp
  · rw [c2, hz.2.1]; simp
  · rw [c3, hz.2.2]; simp

end array

namespace array

variable {T : Type}

/-! ## Sequential appends -/

theorem appendAll_cons [Inhabited T] (a a1 : Array T) (v : T) (vs : List T) (e : error)
    (h : a.Append v = some (a1, e)) :
    appendAll a (v :: vs) = (appendAll a1 vs).map fun r1 => (r1.1, e :: r1.2) := by
  simp [appendAll, h]

/-- The effect of a run of appends on a state of size `n` that satisfies the invariant:
the first `cap - n` of them (or all, if fewer) succeed and fill the positions from `n` on
in order, the others return the error and change nothing. -/
theorem appendAll_spec [Inhabited T] (vs : List T) :
    ∀ (a : Array T) (n : Nat), a.WF → a.size = n →
      ∃ (a1 : Array T) (errs : List error), appendAll a vs = some (a1, errs) ∧ a1.WF ∧
        a1.data.length = a.data.length ∧
        a1.size = ((min (n + vs.length) a.data.length : Nat) : Int) ∧
        errs = List.replicate (min vs.length (a.data.length - n)) none ++
          List.replicate (vs.length - (a.data.length - n)) (some "array is full") ∧
        (∀ j : Nat, j < n → a1.data[j]? = a.data[j]?) ∧
        (∀ j : Nat, j < min vs.length (a.data.length - n) → a1.data[n + j]? = vs[j]?) := by
  induction vs with
  | nil =>
    intro a n hwf hn
    have := hwf.2.1
    refine ⟨a, [], rfl, hwf, rfl, ?_, by simp, fun _ _ => rfl, ?_⟩
    · rw [hn]
      simp only [List.length_nil, Nat.add_zero]
      congr 1
      omega
    · intro j hj
      simp at hj
  | cons v rest ih =>
    intro a n hwf hn
    have hle := hwf.2.1
    by_cases hfull : a.size ≥ a.data.length
    · have hnc : a.data.length = n := by omega
      have h : a.Append v = some (a, some "array is full") := by
        unfold Array.Append
        rw [if_pos hfull]
      obtain ⟨a1, errs, hrun, hwf1, hlen1, hsz1, herr1, hpre1, hnew1⟩ := ih a n hwf hn
      refine ⟨a1, some "array is full" :: errs, ?_, hwf1, hlen1, ?_, ?_, hpre1, ?_⟩
      · rw [appendAll_cons a a v rest _ h, hrun]
        rfl
      · rw [hsz1]
        congr 1
        simp only [List.length_cons]
        omega
      · rw [herr1, hnc]
        simp [List.replicate_succ]
      · intro j hj
        rw [hnc] at hj
        simp at hj
    · have hlt : n < a.data.length := by omega
      have h := Append_ok a v n hn hlt (fun h => (hwf.2.2 h).1)
      obtain ⟨a', hstep, hwf', _⟩ := step_cases a (.Append v) hwf
      rw [step_Append_eq h] at hstep
      cases hstep
      obtain ⟨a1, errs, hrun, hwf1, hlen1, hsz1, herr1, hpre1, hnew1⟩ :=
        ih _ (n + 1) hwf' (by simp)
      simp only [List.length_set] at hlen1 hsz1 herr1 hnew1
      have hmin : min (rest.length + 1) (a.data.length - n) =
          min rest.length (a.data.length - (n + 1)) + 1 := by omega
      refine ⟨a1, none :: errs, ?_, hwf1, hlen1, ?_, ?_, ?_, ?_⟩
      · rw [appendAll_cons a _ v rest _ h, hrun]
        rfl
      · rw [hsz1]
        congr 1
        simp only [List.length_cons]
        omega
      · rw [herr1]
        simp only [List.length_cons]
        rw [hmin, List.replicate_succ, List.cons_append]
        congr 2
        congr 1
        omega
      · intro j hj
        rw [hpre1 j (by omega)]
        simp only [List.getElem?_set]
        rw [if_neg (by omega)]
      · intro j hj
        simp only [List.length_cons] at hj
        cases j with
        | zero =>
          rw [Nat.add_zero, hpre1 n (by omega)]
          simp [List.getElem?_set, hlt]
        | succ j =>
          have := hnew1 j (by omega)
          rw [show n + (j + 1) = n + 1 + j by omega, this]
          simp

/-- C15: for every capacity c >= 0 and every list of values v_0..v_{k-1} appended in order
to a fresh `NewArray(c)`, the calls all return, `Length()` returns min(k, c), exactly the
first min(k, c) `Append` calls return no error (the others return "array is full"), and
`Get(i)` returns v_i without error for every i < min(k, c); in particular with k <= c
`Length()` returns k. -/
theorem Length_after_appends [Inhabited T] (capacity : Int) (config : ArrayConfig)
    (vs : List T) (hcap : 0 ≤ capacity) :
    ∃ (a0 a : Array T) (errs : List error), NewArray T capacity config = some a0 ∧
      appendAll a0 vs = some (a, errs) ∧
      a.Length = min (vs.length : Int) capacity ∧
      errs = List.replicate (min vs.length capacity.toNat) none ++
        List.replicate (vs.length - capacity.toNat) (some "array is full") ∧
      (∀ i : Nat, (i : Int) < min (vs.length : Int) capacity →
        ∃ (a1 : Array T) (x : T), a.Get i = some (a1, x, none) ∧ vs[i]? = some x) ∧
      ((vs.length : Int) ≤ capacity → a.Length = vs.length) := by
  obtain ⟨a0, h0, hwf0, hsz0, hdata0, _⟩ := NewArray_WF (T := T) capacity config hcap
  obtain ⟨c, hc⟩ := Int.eq_ofNat_of_zero_le hcap
  subst hc
  have hlen0 : a0.data.length = c := by rw [hdata0]; simp
  obtain ⟨a, errs, hrun, hwf, hlen, hsz, herr, _, hnew⟩ :=
    appendAll_spec vs a0 0 hwf0 (by simpa using hsz0)
  rw [hlen0] at hsz herr hnew
  simp only [Nat.zero_add, Nat.sub_zero] at hsz herr hnew
  have hL : a.Length = min (vs.length : Int) (c : Int) := by
    show a.size = _
    rw [hsz]
    omega
  refine ⟨a0, a, errs, h0, hrun, hL, by simpa using herr, ?_, ?_⟩
  · intro i hi
    have hi' : i < min vs.length c := by omega
    have hiv : i < vs.length := by omega
    have hx := hnew i hi'
    rw [List.getElem?_eq_getElem hiv] at hx
    refine ⟨_, vs[i], Get_ok a i (vs[i]) (by rw [hsz]; omega) hx
      (fun h => (hwf.2.2 h).2.1), List.getElem?_eq_getElem hiv⟩
  · intro hk
    rw [hL]
    omega

end array

namespace linkedlist

/-! ## Instances on concrete lists -/

theorem Add_appends_witness :
    (initMetrics nilMetrics).addReady ∧
      ∃ (m1 : Metrics) (list1 : LinkedList Nat),
        exampleList.Add (initMetrics nilMetrics) 40 = some (m1, list1) ∧
        list1.traversal = exampleList.traversal ++ [40] ∧
        list1.length = exampleList.length + 1 ∧
        (exampleList.head = none → list1.head = some (.mk 40 none)) :=
  ⟨by decide, Add_appends (initMetrics nilMetrics) exampleList 40 (by decide)⟩

theorem Find_first_match_witness :
    (initMetrics nilMetrics).findReady ∧ 20 ∈ exampleList.traversal ∧
      ∃ (m1 : Metrics) (node : Node Nat) (pre post : List Nat),
        exampleList.Find (initMetrics nilMetrics) 20 = some (m1, some node) ∧
        node.data = 20 ∧ exampleList.traversal = pre ++ 20 :: post ∧ 20 ∉ pre ∧
        node.toList = 20 :: post :=
  ⟨by decide, by decide,
    (Find_first_match (initMetrics nilMetrics) exampleList 20 (by decide)).2.1 (by decide)⟩

end linkedlist

namespace array

/-! ## Instances on concrete sequences of calls -/

theorem size_invariant_witness :
    (0 : Int) ≤ 3 ∧
      ∃ a0 a : Array Int, NewArray Int 3 { MetricsEnabled := false } = some a0 ∧
        run a0 [.Append 10, .Append 20, .Delete 0, .Resize 1, .Get 5, .Append 30,
          .Delete (-1), .Resize (-2), .Length] = some a ∧
        0 ≤ a.size ∧ a.size ≤ a.data.length :=
  ⟨by decide, size_invariant 3 { MetricsEnabled := false } _ (by decide)⟩

theorem Length_after_appends_witness :
    (0 : Int) ≤ 3 ∧
      ∃ (a0 a : Array Int) (errs : List error),
        NewArray Int 3 { MetricsEnabled := false } = some a0 ∧
        appendAll a0 [10, 20, 30, 40] = some (a, errs) ∧
        a.Length = min (([10, 20, 30, 40] : List Int).length : Int) 3 ∧
        errs = List.replicate (min ([10, 20, 30, 40] : List Int).length (3 : Int).toNat) none ++
          List.replicate (([10, 20, 30, 40] : List Int).length - (3 : Int).toNat)
            (some "array is full") ∧
        (∀ i : Nat, (i : Int) < min (([10, 20, 30, 40] : List Int).length : Int) 3 →
          ∃ (a1 : Array Int) (x : Int), a.Get i = some (a1, x, none) ∧
            ([10, 20, 30, 40] : List Int)[i]? = some x) ∧
        ((([10, 20, 30, 40] : List Int).length : Int) ≤ 3 →
          a.Length = ([10, 20, 30, 40] : List Int).length) :=
  ⟨by decide, Length_after_appends 3 { MetricsEnabled := false } [10, 20, 30, 40] (by decide)⟩

theorem counter_accounting_witness :
    (0 : Int) ≤ 2 ∧
      ∃ a0 a : Array Int, NewArray Int 2 { MetricsEnabled := true } = some a0 ∧
        run a0 [.Append 10, .Append 20, .Append 30, .Get 0, .Get 2, .Resize 1, .Resize 4,
          .Delete 0, .Delete 7] = some a ∧
        a.appendCounter = some (countCalls appendOk a0
          [.Append 10, .Append 20, .Append 30, .Get 0, .Get 2, .Resize 1, .Resize 4,
            .Delete 0, .Delete 7]) ∧
        a.getCounter = some (countCalls getOk a0
          [.Append 10, .Append 20, .Append 30, .Get 0, .Get 2, .Resize 1, .Resize 4,
            .Delete 0, .Delete 7]) ∧
        a.resizeCounter = some (countCalls resizeOk a0
          [.Append 10, .Append 20, .Append 30, .Get 0, .Get 2, .Resize 1, .Resize 4,
            .Delete 0, .Delete 7] + countCalls deleteOk a0
          [.Append 10, .Append 20, .Append 30, .Get 0, .Get 2, .Resize 1, .Resize 4,
            .Delete 0, .Delete 7]) :=
  ⟨by decide, counter_accounting 2 _ (by decide)⟩

end array

namespace array

variable {T : Type}

/-! ## The filler beyond the live elements -/

/-- One call keeps the slots from `size` on at the zero value. -/
theorem step_zero [Inhabited T] (a : Array T) (op : Op T) (hwf : a.WF)
    (hz : ∀ j : Nat, a.size ≤ (j : Int) → j < a.data.length → a.data[j]? = some default) :
    ∃ a1 : Array T, step a op = some a1 ∧ a1.WF ∧
      ∀ j : Nat, a1.size ≤ (j : Int) → j < a1.data.length → a1.data[j]? = some default := by
  have hle := hwf.2.1
  obtain ⟨a1, hstep, hwf1, _, hshape⟩ := step_cases a op hwf
  refine ⟨a1, hstep, hwf1, ?_⟩
  rcases hshape with ⟨hd, hsz⟩ | ⟨w, n, _, hn, hnl, hd, hsz⟩ | ⟨k, _, hk, hd, hsz⟩ |
    ⟨i, n, _, hn, hin, hnl, hd, hsz, _⟩
  · rw [hd, hsz]
    exact hz
  · rw [hd, hsz]
    intro j hj hjl
    simp only [List.length_set] at hjl
    rw [List.getElem?_set, if_neg (by omega)]
    exact hz j (by omega) hjl
  · rw [hd, hsz]
    intro j hj hjl
    rw [copy_length, List.length_replicate] at hjl
    rw [getElem?_copy]
    by_cases hmin : j < min (List.replicate k (default : T)).length a.data.length
    · rw [if_pos hmin]
      simp only [List.length_replicate] at hmin
      exact hz j hj (by omega)
    · rw [if_neg hmin]
      simp [List.getElem?_replicate, hjl]
  · rw [hd, hsz]
    intro j hj hjl
    rw [deleted_length _ _ _ hin hnl] at hjl
    rw [getElem?_deleted _ _ _ _ hin hnl, if_neg (by omega), if_neg (by omega)]
    by_cases hlast : j = n - 1
    · rw [if_pos hlast]
    · rw [if_neg hlast]
      exact hz j (by omega) hjl

theorem run_zero [Inhabited T] (ops : List (Op T)) :
    ∀ a : Array T, a.WF →
      (∀ j : Nat, a.size ≤ (j : Int) → j < a.data.length → a.data[j]? = some default) →
      ∃ a1 : Array T, run a ops = some a1 ∧ a1.WF ∧
        ∀ j : Nat, a1.size ≤ (j : Int) → j < a1.data.length →
          a1.data[j]? = some default := by
  induction ops with
  | nil =>
    intro a hwf hz
    exact ⟨a, rfl, hwf, hz⟩
  | cons op ops ih =>
    intro a hwf hz
    obtain ⟨a1, hstep, hwf1, hz1⟩ := step_zero a op hwf hz
    obtain ⟨a2, hrun, hwf2, hz2⟩ := ih a1 hwf1 hz1
    exact ⟨a2, by simp [run, hstep, hrun], hwf2, hz2⟩

theorem NewArray_zero [Inhabited T] (capacity : Int) (config : ArrayConfig)
    (hcap : 0 ≤ capacity) :
    ∃ a0 : Array T, NewArray T capacity config = some a0 ∧ a0.WF ∧
      ∀ j : Nat, a0.size ≤ (j : Int) → j < a0.data.length → a0.data[j]? = some default := by
  obtain ⟨a0, h0, hwf0, _, hdata, _⟩ := NewArray_WF (T := T) capacity config hcap
  refine ⟨a0, h0, hwf0, ?_⟩
  intro j _ hjl
  rw [hdata] at hjl ⊢
  simp only [List.length_replicate] at hjl
  simp [List.getElem?_replicate, hjl]

theorem Reachable.zero_tail [Inhabited T] {a : Array T} (h : Reachable a) :
    ∀ j : Nat, a.size ≤ (j : Int) → j < a.data.length → a.data[j]? = some default := by
  obtain ⟨capacity, config, ops, hcap, hrun⟩ := h
  obtain ⟨a0, h0, hwf0, hz0⟩ := NewArray_zero (T := T) capacity config hcap
  rw [h0] at hrun
  obtain ⟨a1, h1, _, hz1⟩ := run_zero ops a0 hwf0 hz0
  simp only [Option.some_bind] at hrun
  rw [h1] at hrun
  cases hrun
  exact hz1

/-- C21: for an array made by `NewArray` with a capacity >= 0, every finite sequence of
`Append`, `Get`, `Length`, `Resize` and `Delete` calls runs to its end, and afterwards every
buffer slot at an index j with size <= j < capacity holds the zero value of `T`. -/
theorem zero_filler [Inhabited T] (capacity : Int) (config : ArrayConfig)
    (ops : List (Op T)) (hcap : 0 ≤ capacity) :
    ∃ a0 a : Array T, NewArray T capacity config = some a0 ∧ run a0 ops = some a ∧
      ∀ j : Int, a.size ≤ j → j < a.data.length → readAt a.data j = some default := by
  obtain ⟨a0, h0, hwf0, hz0⟩ := NewArray_zero (T := T) capacity config hcap
  obtain ⟨a, hrun, hwf, hz⟩ := run_zero ops a0 hwf0 hz0
  refine ⟨a0, a, h0, hrun, ?_⟩
  intro j hj hjl
  have h0j : 0 ≤ j := le_trans hwf.1 hj
  obtain ⟨i, hi⟩ := Int.eq_ofNat_of_zero_le h0j
  subst hi
  rw [readAt_ofNat]
  exact hz i hj (by omega)

/-- C22: for every state reachable from `NewArray` (capacity >= 0) with size = n < capacity
and every value `v`, `Append(v)` returns no error, the following `Delete(n)` returns no
error, and afterwards size is `n` again and the buffer is the buffer before the `Append`:
every slot, the one at index `n` included, holds the value it held. -/
theorem Append_Delete_roundtrip [Inhabited T] (a : Array T) (v : T) (hreach : Reachable a)
    (hroom : a.size < a.data.length) :
    ∃ a1 a2 : Array T, a.Append v = some (a1, none) ∧ a1.Delete a.size = some (a2, none) ∧
      a2.size = a.size ∧ a2.data = a.data ∧
      ∀ j : Int, readAt a2.data j = readAt a.data j := by
  have hwf := hreach.wf
  have hz := hreach.zero_tail
  obtain ⟨n, hn⟩ := Int.eq_ofNat_of_zero_le hwf.1
  have hlt : n < a.data.length := by omega
  have happ := Append_ok a v n hn hlt (fun h => (hwf.2.2 h).1)
  obtain ⟨a1, hstep, hwf1, _, _⟩ := step_cases a (.Append v) hwf
  rw [step_Append_eq happ] at hstep
  cases hstep
  have hdel := Delete_ok _ n (n + 1) rfl (Nat.lt_succ_self n)
    (by simp only [List.length_set]; omega) (fun h => (hwf1.2.2 h).2.2)
  have hdata : deleted (a.data.set n v) n (n + 1) = a.data := by
    apply List.ext_getElem?
    intro j
    rw [getElem?_deleted _ _ _ _ (Nat.lt_succ_self n)
      (by simp only [List.length_set]; omega)]
    by_cases h1 : j < n
    · rw [if_pos h1, List.getElem?_set, if_neg (by omega)]
    · rw [if_neg h1, if_neg (by omega)]
      by_cases h2 : j = n + 1 - 1
      · rw [if_pos h2]
        have hjn : j = n := by omega
        subst hjn
        exact (hz j (by omega) hlt).symm
      · rw [if_neg h2, List.getElem?_set, if_neg (by omega)]
  rw [hn]
  refine ⟨_, _, happ, hdel, ?_, hdata, ?_⟩
  · show ((n + 1 : Nat) : Int) - 1 = (n : Int)
    omega
  · intro j
    show readAt (deleted (a.data.set n v) n (n + 1)) j = readAt a.data j
    rw [hdata]

end array

namespace array

theorem zero_filler_witness :
    (0 : Int) ≤ 4 ∧
      ∃ a0 a : Array Int, NewArray Int 4 { MetricsEnabled := true } = some a0 ∧
        run a0 [.Append 10, .Append 20, .Append 30, .Delete 0, .Resize 2, .Resize 5,
          .Append 40, .Delete 2, .Get 1, .Delete 9] = some a ∧
        ∀ j : Int, a.size ≤ j → j < a.data.length → readAt a.data j = some default :=
  ⟨by decide, zero_filler 4 { MetricsEnabled := true } _ (by decide)⟩

theorem Append_Delete_roundtrip_witness :
    Reachable exampleArray ∧ exampleArray.size < exampleArray.data.length ∧
      ∃ a1 a2 : Array Int, exampleArray.Append 40 = some (a1, none) ∧
        a1.Delete exampleArray.size = some (a2, none) ∧
        a2.size = exampleArray.size ∧ a2.data = exampleArray.data ∧
        ∀ j : Int, readAt a2.data j = readAt exampleArray.data j :=
  ⟨exampleArray_reachable, by decide,
    Append_Delete_roundtrip exampleArray 40 exampleArray_reachable (by decide)⟩

end array

namespace array

variable {T : Type}

/-! ## The allocation limit -/

theorem makeslice_within [Inhabited T] (lim : Nat) (n : Int) (h : n ≤ lim) :
    makeslice T lim n = make T n := by
  unfold makeslice make
  by_cases hn : n < 0
  · simp [hn]
  · have hl : ¬ ((lim : Int) < n) := by omega
    simp [hn, hl]

theorem makeslice_over [Inhabited T] (lim : Nat) (n : Int) (h : (lim : Int) < n) :
    makeslice T lim n = none := by
  simp [makeslice, h]

theorem ResizeLim_within [Inhabited T] (lim : Nat) (a : Array T) (k : Int) (h : k ≤ lim) :
    a.ResizeLim lim k = a.Resize k := by
  unfold Array.ResizeLim Array.Resize
  rw [makeslice_within _ _ h]

/-- A `Resize` that passes the guard with a capacity above the limit panics in `make`. -/
theorem ResizeLim_over [Inhabited T] (lim : Nat) (a : Array T) (k : Int)
    (h1 : a.size ≤ k) (h2 : (lim : Int) < k) : a.ResizeLim lim k = none := by
  unfold Array.ResizeLim
  rw [if_neg (by omega), makeslice_over _ _ h2]
  rfl

/-- A `Resize` that returns under the limit returns the same without it. -/
theorem ResizeLim_some [Inhabited T] (lim : Nat) (a : Array T) (k : Int)
    (r : Array T × error) (h : a.ResizeLim lim k = some r) : a.Resize k = some r := by
  by_cases hk : k ≤ lim
  · rw [← ResizeLim_within lim a k hk]
    exact h
  · by_cases hs : k < a.size
    · unfold Array.ResizeLim at h
      unfold Array.Resize
      rw [if_pos hs] at h ⊢
      exact h
    · rw [ResizeLim_over lim a k (by omega) (by omega)] at h
      cases h

theorem stepLim_within [Inhabited T] (lim : Nat) (a : Array T) (op : Op T)
    (h : ∀ k : Int, op = .Resize k → k ≤ lim) : stepLim lim a op = step a op := by
  cases op with
  | Resize k => simp only [stepLim, step, ResizeLim_within lim a k (h k rfl)]
  | Append v => rfl
  | Get i => rfl
  | Length => rfl
  | Delete i => rfl

theorem stepLim_step [Inhabited T] (lim : Nat) (a a1 : Array T) (op : Op T)
    (h : stepLim lim a op = some a1) : step a op = some a1 := by
  cases op with
  | Resize k =>
    simp only [stepLim, Option.map_eq_some'] at h
    obtain ⟨r, hr, hfst⟩ := h
    simp only [step, ResizeLim_some lim a k r hr, Option.map_some', hfst]
  | Append v => exact h
  | Get i => exact h
  | Length => exact h
  | Delete i => exact h

/-- Every run that completes under the limit is a run of the functions without the limit,
with the same final state. -/
theorem runLim_run [Inhabited T] (lim : Nat) (ops : List (Op T)) :
    ∀ a a1 : Array T, runLim lim a ops = some a1 → run a ops = some a1 := by
  induction ops with
  | nil =>
    intro a a1 h
    exact h
  | cons op ops ih =>
    intro a a1 h
    simp only [runLim, Option.bind_eq_some] at h
    obtain ⟨a2, h2, h3⟩ := h
    simp only [run, stepLim_step lim a a2 op h2, Option.some_bind]
    exact ih a2 a1 h3

theorem runLim_within [Inhabited T] (lim : Nat) (ops : List (Op T)) :
    ∀ a : Array T, (∀ k : Int, Op.Resize k ∈ ops → k ≤ lim) →
      runLim lim a ops = run a ops := by
  induction ops with
  | nil =>
    intro a _
    rfl
  | cons op ops ih =>
    intro a h
    simp only [runLim, run]
    rw [stepLim_within lim a op (fun k hk => h k (by rw [hk]; exact List.mem_cons_self _ _))]
    cases hs : step a op with
    | none => rfl
    | some a1 =>
      simp only [Option.some_bind]
      exact ih a1 (fun k hk => h k (List.mem_cons_of_mem _ hk))

theorem NewArrayLim_within [Inhabited T] (lim : Nat) (capacity : Int)
    (config : ArrayConfig) (h : capacity ≤ lim) :
    NewArrayLim T lim capacity config = NewArray T capacity config := by
  unfold NewArrayLim NewArray
  rw [makeslice_within _ _ h]

theorem NewArrayLim_some [Inhabited T] (lim : Nat) (capacity : Int) (config : ArrayConfig)
    (a0 : Array T) (h : NewArrayLim T lim capacity config = some a0) :
    0 ≤ capacity ∧ capacity ≤ lim ∧ NewArray T capacity config = some a0 := by
  have hb : ¬ (capacity < 0 ∨ (lim : Int) < capacity) := by
    intro hbad
    unfold NewArrayLim makeslice at h
    rw [if_pos hbad] at h
    simp at h
  have hle : capacity ≤ lim := by omega
  exact ⟨by omega, hle, by rw [← NewArrayLim_within lim capacity config hle]; exact h⟩

/-- One call under the limit keeps the invariant and keeps the capacity within the
limit. -/
theorem stepLim_inv [Inhabited T] (lim : Nat) (a a1 : Array T) (op : Op T) (hwf : a.WF)
    (hlen : a.data.length ≤ lim) (h : stepLim lim a op = some a1) :
    a1.WF ∧ a1.data.length ≤ lim := by
  have hs := stepLim_step lim a a1 op h
  obtain ⟨a2, hstep, hwf2, _, hshape⟩ := step_cases a op hwf
  rw [hs] at hstep
  cases hstep
  refine ⟨hwf2, ?_⟩
  rcases hshape with ⟨hd, _⟩ | ⟨w, n, _, _, _, hd, _⟩ | ⟨k, hop, hk, hd, _⟩ |
    ⟨i, n, _, _, hin, hnl, hd, _, _⟩
  · rw [hd]; exact hlen
  · rw [hd, List.length_set]; exact hlen
  · rw [hd, copy_length, List.length_replicate]
    by_contra hcon
    subst hop
    simp only [stepLim, ResizeLim_over lim a k hk (by omega), Option.map_none'] at h
    cases h
  · rw [hd, deleted_length _ _ _ hin hnl]; exact hlen

theorem runLim_inv [Inhabited T] (lim : Nat) (ops : List (Op T)) :
    ∀ a a1 : Array T, a.WF → a.data.length ≤ lim → runLim lim a ops = some a1 →
      a1.WF ∧ a1.data.length ≤ lim := by
  induction ops with
  | nil =>
    intro a a1 hwf hlen h
    cases h
    exact ⟨hwf, hlen⟩
  | cons op ops ih =>
    intro a a1 hwf hlen h
    simp only [runLim, Option.bind_eq_some] at h
    obtain ⟨a2, h2, h3⟩ := h
    obtain ⟨hwf2, hlen2⟩ := stepLim_inv lim a a2 op hwf hlen h2
    exact ih a2 a1 hwf2 hlen2 h3

/-- The states reached under the limit satisfy the invariant, have a capacity within the
limit, and are states reached by the functions without the limit. -/
theorem ReachableLim.inv [Inhabited T] {lim : Nat} {a : Array T} (h : ReachableLim lim a) :
    a.WF ∧ a.data.length ≤ lim ∧ Reachable a := by
  obtain ⟨capacity, config, ops, hcap, hrun⟩ := h
  simp only [Option.bind_eq_some] at hrun
  obtain ⟨a0, h0, hr⟩ := hrun
  obtain ⟨_, hle, hnew⟩ := NewArrayLim_some lim capacity config a0 h0
  obtain ⟨a0', h0', hwf0, _, hdata, _⟩ := NewArray_WF (T := T) capacity config hcap
  rw [hnew] at h0'
  cases h0'
  have hlen0 : a0.data.length ≤ lim := by
    rw [hdata, List.length_replicate]
    omega
  obtain ⟨hwf, hlen⟩ := runLim_inv lim ops a0 a hwf0 hlen0 hr
  refine ⟨hwf, hlen, capacity, config, ops, hcap, ?_⟩
  rw [hnew]
  exact runLim_run lim ops a0 a hr

end array

namespace array

variable {T : Type}

/-! ## Resize and the absence of panics under the allocation limit -/

/-- Counterexample to C6 as stated: on the reachable state with elements 10, 20, 30 in a
buffer of capacity 5, `Resize(math.MaxInt64)` asks for a capacity >= size, and the call
does not return: `make` panics, for 8-byte elements on a 64-bit runtime. -/
theorem Resize_MaxInt64_panics :
    ReachableLim limInt64 exampleArray ∧ exampleArray.size ≤ 9223372036854775807 ∧
      exampleArray.ResizeLim limInt64 9223372036854775807 = none :=
  ⟨⟨5, { MetricsEnabled := true }, [.Append 10, .Append 20, .Append 30], by decide,
      by decide⟩,
    by decide, by decide⟩

/-- C6 (amended): on every state reachable from `NewArray` and for every newCap with
size <= newCap <= lim, where lim is the largest length `make` allocates (newCap smaller
than the current capacity or not), `Resize(newCap)` returns no error, the capacity becomes
exactly newCap, size is unchanged, and every position i < size holds the same element as
before. -/
theorem Resize_within_limit [Inhabited T] (lim : Nat) (a : Array T) (newCapacity : Int)
    (hreach : ReachableLim lim a) (hcap : a.size ≤ newCapacity)
    (hlim : newCapacity ≤ lim) :
    ∃ a1 : Array T, a.ResizeLim lim newCapacity = some (a1, none) ∧
      (a1.data.length : Int) = newCapacity ∧ a1.size = a.size ∧
      ∀ i : Int, i < a.size → readAt a1.data i = readAt a.data i := by
  obtain ⟨⟨hs, hle, hc⟩, _, _⟩ := hreach.inv
  obtain ⟨k, hk⟩ := Int.eq_ofNat_of_zero_le (show 0 ≤ newCapacity by omega)
  subst hk
  rw [ResizeLim_within lim a k hlim]
  refine ⟨_, Resize_ok a k hcap (fun h => (hc h).2.2), ?_, rfl, ?_⟩
  · simp only [copy_length, List.length_replicate]
  · intro i hi
    by_cases hneg : i < 0
    · rw [readAt_of_neg _ _ hneg, readAt_of_neg _ _ hneg]
    · rw [readAt_of_nonneg _ _ (by omega), readAt_of_nonneg _ _ (by omega)]
      simp only
      rw [getElem?_copy, if_pos (by simp only [List.length_replicate]; omega)]

/-- Counterexample to C16 as stated: `NewArray[int](3, ...)` and `Append(10)` return, and
the following `Resize(math.MaxInt64)` panics in `make`, so the sequence of the two calls
does not run to its end; `NewArray[int](math.MaxInt64, ...)` panics as well. The limit is
the one for 8-byte elements on a 64-bit runtime. -/
theorem Resize_panics_in_run :
    ((NewArrayLim Int limInt64 3 { MetricsEnabled := false }).bind
        fun a0 => runLim limInt64 a0 [.Append 10]) =
      some { data := [10, 0, 0], size := 1, config := { MetricsEnabled := false },
             appendCounter := none, getCounter := none, resizeCounter := none } ∧
    ((NewArrayLim Int limInt64 3 { MetricsEnabled := false }).bind
        fun a0 => runLim limInt64 a0 [.Append 10, .Resize 9223372036854775807]) = none ∧
    NewArrayLim Int limInt64 9223372036854775807 { MetricsEnabled := false } = none := by
  decide

/-- C16 (amended): for an array made by `NewArray` with 0 <= capacity <= lim, where lim is
the largest length `make` allocates, the constructor returns; every finite sequence of
`Append`, `Get`, `Length`, `Resize` and `Delete` calls with arbitrary integer arguments
(negative ones included) in which no `Resize` asks for more than lim runs to its end
without a panic; and in the state reached every further `Append`, `Get` and `Delete` with
any argument, and every `Resize` of at most lim, returns normally with a result or an
error value. -/
theorem no_panic_within_limit [Inhabited T] (lim : Nat) (capacity : Int)
    (config : ArrayConfig) (hcap : 0 ≤ capacity) (hlim : capacity ≤ lim) :
    ∃ a0 : Array T, NewArrayLim T lim capacity config = some a0 ∧
      ∀ ops : List (Op T), (∀ k : Int, Op.Resize k ∈ ops → k ≤ lim) →
        ∃ a : Array T, runLim lim a0 ops = some a ∧
          (∀ v : T, ∃ (a1 : Array T) (e : error), a.Append v = some (a1, e)) ∧
          (∀ i : Int, ∃ (a1 : Array T) (x : T) (e : error), a.Get i = some (a1, x, e)) ∧
          (∀ k : Int, k ≤ lim →
            ∃ (a1 : Array T) (e : error), a.ResizeLim lim k = some (a1, e)) ∧
          (∀ i : Int, ∃ (a1 : Array T) (e : error), a.Delete i = some (a1, e)) := by
  obtain ⟨a0, h0, hwf0, _⟩ := NewArray_WF (T := T) capacity config hcap
  refine ⟨a0, by rw [NewArrayLim_within lim capacity config hlim]; exact h0,
    fun ops hops => ?_⟩
  obtain ⟨a, hrun, hwf⟩ := run_WF ops a0 hwf0
  refine ⟨a, by rw [runLim_within lim ops a0 hops]; exact hrun, fun v => ?_, fun i => ?_,
    fun k hk => ?_, fun i => ?_⟩
  · obtain ⟨a1, h1, _⟩ := step_WF a (.Append v) hwf
    cases h : a.Append v with
    | none => simp [step, h] at h1
    | some r => exact ⟨r.1, r.2, rfl⟩
  · obtain ⟨a1, h1, _⟩ := step_WF a (.Get i) hwf
    cases h : a.Get i with
    | none => simp [step, h] at h1
    | some r => exact ⟨r.1, r.2.1, r.2.2, rfl⟩
  · obtain ⟨a1, h1, _⟩ := step_WF a (.Resize k) hwf
    rw [ResizeLim_within lim a k hk]
    cases h : a.Resize k with
    | none => simp [step, h] at h1
    | some r => exact ⟨r.1, r.2, rfl⟩
  · obtain ⟨a1, h1, _⟩ := step_WF a (.Delete i) hwf
    cases h : a.Delete i with
    | none => simp [step, h] at h1
    | some r => exact ⟨r.1, r.2, rfl⟩

theorem exampleArray_reachableLim : ReachableLim limInt64 exampleArray :=
  ⟨5, { MetricsEnabled := true }, [.Append 10, .Append 20, .Append 30], by decide,
    by decide⟩

theorem Resize_within_limit_witness :
    ReachableLim limInt64 exampleArray ∧ exampleArray.size ≤ 4 ∧
      (4 : Int) ≤ (limInt64 : Nat) ∧
      ∃ a1 : Array Int, exampleArray.ResizeLim limInt64 4 = some (a1, none) ∧
        (a1.data.length : Int) = 4 ∧ a1.size = exampleArray.size ∧
        ∀ i : Int, i < exampleArray.size → readAt a1.data i = readAt exampleArray.data i :=
  ⟨exampleArray_reachableLim, by decide, by decide,
    Resize_within_limit limInt64 exampleArray 4 exampleArray_reachableLim (by decide)
      (by decide)⟩

theorem no_panic_within_limit_witness :
    (0 : Int) ≤ 0 ∧ (0 : Int) ≤ (limInt64 : Nat) ∧
      ∃ a0 : Array Int, NewArrayLim Int limInt64 0 { MetricsEnabled := true } = some a0 ∧
        ∀ ops : List (Op Int), (∀ k : Int, Op.Resize k ∈ ops → k ≤ (limInt64 : Nat)) →
          ∃ a : Array Int, runLim limInt64 a0 ops = some a ∧
            (∀ v : Int, ∃ (a1 : Array Int) (e : error), a.Append v = some (a1, e)) ∧
            (∀ i : Int, ∃ (a1 : Array Int) (x : Int) (e : error),
              a.Get i = some (a1, x, e)) ∧
            (∀ k : Int, k ≤ (limInt64 : Nat) →
              ∃ (a1 : Array Int) (e : error), a.ResizeLim limInt64 k = some (a1, e)) ∧
            (∀ i : Int, ∃ (a1 : Array Int) (e : error), a.Delete i = some (a1, e)) :=
  ⟨by decide, by decide,
    no_panic_within_limit limInt64 0 { MetricsEnabled := true } (by decide) (by decide)⟩

end array

namespace linkedlist

variable {T : Type}

/-- C19 (amended): `NewLinkedList` sets up the process-wide counters and timers on every
call, not a single time: after `NewLinkedList` and any finite sequence of `Add`, `Remove`
and `Find` calls, a further `NewLinkedList` replaces all six by fresh ones, so the counts
of `AddCounter`, `RemoveCounter` and `FindCounter` and the sample counts of the three
timers are 0 whatever had been accumulated, and the list it returns is empty. -/
theorem NewLinkedList_fresh_metrics [DecidableEq T] (m : Metrics) (ops : List (Op T)) :
    ∃ s : Metrics × LinkedList T, run (NewLinkedList T m) ops = some s ∧
      (NewLinkedList T s.1).1 =
        { AddCounter := some 0, RemoveCounter := some 0, FindCounter := some 0,
          AddDuration := some 0, RemoveDuration := some 0, FindDuration := some 0 } ∧
      (NewLinkedList T s.1).2.head = none ∧ (NewLinkedList T s.1).2.length = 0 := by
  obtain ⟨s, hrun, _⟩ := run_spec ops (NewLinkedList T m) (NewLinkedList_ready m)
  exact ⟨s, hrun, rfl, rfl, rfl⟩

end linkedlist
